import Mathlib

/-!
# Arb: the partition function dispatcher (`partitions/fmpz_fmpz.c`)

A shallow embedding of `partitions_fmpz_fmpz_hrr`, `partitions_vec`,
`_partitions_fmpz_ui`, `partitions_fmpz_fmpz` and `partitions_fmpz_ui`, and the
proofs of their properties.

## The embedding

* arbitrary precision integers (`fmpz_t`) are `Int`;
* an `ulong` / `mp_limb_t` is a `Nat`, reduced modulo `W = 2 ^ bits` wherever the
  C arithmetic can wrap (`bits` is `FLINT_BITS`);
* the loop counters `i`, `j`, `n` of `partitions_vec` are `slong` in C and `Nat`
  here: they stay below `len + 3 * len + 2`, far from the range of `slong`;
* the vector `mp_ptr v` is a `List Nat` of limbs, a store is `List.set` and a
  load is `List.getD`; the block returned by `flint_malloc` holds arbitrary
  limbs, given by a parameter `heap : Nat → Nat`;
* a call that ends in `flint_abort()` has outcome `none`; the diagnostics printed
  on the way are not part of the outcome;
* the routines of the library that the file only calls (series summation, tail
  bound, number of terms, ball arithmetic, unique integer extraction) are the
  fields of `Collaborators`; the table `partitions_lookup` is a parameter
  `lookup : Nat → Nat` whose entries are `unsigned int` values, so that they are
  kept by the conversions to a limb and to an `ulong`.

## Checked accesses

`partitions_vec_checked` is `partitions_vec` on a block whose limbs are `none`
until they are written, with every load and every store checked; it is used to
state that the accesses of the recurrence are in range.

## The mathematics

`p n` is the number of partitions of `n` (`Nat.Partition n`). Euler's pentagonal
recurrence for `p` (`p_pentagonal`) is proved from the generating series of the
partitions into parts of bounded size and a finite form of the pentagonal number
theorem (`shanks`). The values of `p` below 418 are read off a list that is
checked against the recurrence (`p_eq_cert`).

The file `acb_modular/transform.c` is embedded in the namespace `AcbModular`.
-/

namespace Partitions

/-- The constant `NUMBER_OF_SMALL_PARTITIONS`. -/
def NUMBER_OF_SMALL_PARTITIONS : Nat := 128

/-- The library routines called by `fmpz_fmpz.c`. `Arb` is the type of real balls
(`arb_t`), `Arf` the type of floating point numbers (`arf_t`) and `Dbl` the type
`double`. `arb_get_unique_fmpz` gives `some m` when the C function returns
nonzero after storing `m`, and `none` when it returns zero. -/
structure Collaborators (Arb Arf Dbl : Type) where
  fmpz_get_d : Int → Dbl
  partitions_hrr_needed_terms : Dbl → Int
  partitions_hrr_sum_arb : Int → Int → Int → Bool → Arb
  partitions_rademacher_bound : Int → Int → Arf
  arb_add_error_arf : Arb → Arf → Arb
  arb_get_unique_fmpz : Arb → Option Int
  partitions_leading_fmpz : Int → Int → Arb
  arb_mul_2exp_si : Arb → Int → Arb
  arb_floor : Arb → Int → Arb

variable {Arb Arf Dbl : Type}

/-- The enclosure handed to the extractor by `partitions_fmpz_fmpz_hrr`: the sum
of the terms `1..N` of the series, its radius widened by the Rademacher bound. -/
def hrr_enclosure (C : Collaborators Arb Arf Dbl) (n : Int) (use_doubles : Bool) : Arb :=
  let N := C.partitions_hrr_needed_terms (C.fmpz_get_d n)
  let x := C.partitions_hrr_sum_arb n 1 N use_doubles
  let bound := C.partitions_rademacher_bound n N
  C.arb_add_error_arf x bound

/-- The function `partitions_fmpz_fmpz_hrr`: `none` is the `flint_abort()` taken
when the extraction fails. -/
def partitions_fmpz_fmpz_hrr (C : Collaborators Arb Arf Dbl) (n : Int)
    (use_doubles : Bool) : Option Int :=
  match C.arb_get_unique_fmpz (hrr_enclosure C n use_doubles) with
  | some p => some p
  | none => none

/-- One of the two inner loops of `partitions_vec`,
`for (i = 1, j = c; j <= n; j += 3 * i + c, i++) p = v[n - j] - p;`
run from the state `(i, j, p)`; the result is the final `(i, p)`. `W` is the
limb modulus `2 ^ FLINT_BITS`. The first argument bounds the number of
iterations: `n + 1` of them are never used up (`pent_loop_fuel`). -/
def pent_loop (W : Nat) (v : List Nat) (n c : Nat) : Nat → Nat → Nat → Nat → Nat × Nat
  | 0, i, _, p => (i, p)
  | fuel + 1, i, j, p =>
    if j ≤ n then
      pent_loop W v n c fuel (i + 1) (j + (3 * i + c)) ((v.getD (n - j) 0 + (W - p % W)) % W)
    else (i, p)

/-- The limb `-p` for a limb `p`. -/
def limb_neg (W p : Nat) : Nat := (W - p % W) % W

/-- The body of the second `for` loop of `partitions_vec`: the limb stored in
`v[n]`. -/
def vec_entry (W : Nat) (v : List Nat) (n : Nat) : Nat :=
  let r1 := pent_loop W v n 1 (n + 1) 1 1 0
  let p1 := if r1.1 % 2 = 0 then limb_neg W r1.2 else r1.2
  let r2 := pent_loop W v n 2 (n + 1) 1 2 p1
  if r2.1 % 2 ≠ 0 then limb_neg W r2.2 else r2.2

/-- The first `for` loop of `partitions_vec`: the table copied into the entries
below `min len 128`. -/
def vec_seed (lookup : Nat → Nat) (v : List Nat) (len : Nat) : List Nat :=
  (List.range (min len NUMBER_OF_SMALL_PARTITIONS)).foldl (fun v n => v.set n (lookup n)) v

/-- The second `for` loop of `partitions_vec`, run for `n = start, ..., start + cnt - 1`. -/
def vec_fill (W : Nat) (v : List Nat) (start cnt : Nat) : List Nat :=
  (List.range' start cnt).foldl (fun v n => v.set n (vec_entry W v n)) v

/-- The function `partitions_vec`: from the vector `v` to the vector after the
call. -/
def partitions_vec (W : Nat) (lookup : Nat → Nat) (v : List Nat) (len : Nat) : List Nat :=
  vec_fill W (vec_seed lookup v len) NUMBER_OF_SMALL_PARTITIONS (len - NUMBER_OF_SMALL_PARTITIONS)

/-- The block of `cnt` limbs returned by `flint_malloc`, with its content. -/
def flint_malloc (heap : Nat → Nat) (cnt : Nat) : List Nat := (List.range cnt).map heap

/-- The branch of `_partitions_fmpz_ui` taken. -/
inductive Branch
  | lookup
  | vec
  | floor_vec
  | hrr
  deriving DecidableEq

/-- The conditions of the `if` chain of `_partitions_fmpz_ui`, in order. -/
def branch (bits n : Nat) (use_doubles : Bool) : Branch :=
  if n < NUMBER_OF_SMALL_PARTITIONS then Branch.lookup
  else if bits = 64 ∧ (n < 500 ∨ (use_doubles = false ∧ n < 1200)) then
    if n < 417 then Branch.vec else Branch.floor_vec
  else Branch.hrr

/-- The precision argument `4 * sqrt(n) - 50` as converted to `slong`
(truncation towards zero): `floor (4 * sqrt n) = Nat.sqrt (16 * n)`, and for a
negative value the truncation is the ceiling. -/
def guard_prec (n : Nat) : Int :=
  if 2500 ≤ 16 * n then (Nat.sqrt (16 * n) : Int) - 50
  else if Nat.sqrt (16 * n) * Nat.sqrt (16 * n) = 16 * n then (Nat.sqrt (16 * n) : Int) - 50
  else (Nat.sqrt (16 * n) : Int) + 1 - 50

/-- The enclosure handed to the extractor in the floor+vec branch. -/
def floor_enclosure (C : Collaborators Arb Arf Dbl) (n : Nat) : Arb :=
  let x := C.partitions_leading_fmpz (n : Int) (guard_prec n)
  let x := C.arb_mul_2exp_si x (-64)
  C.arb_floor x (guard_prec n)

/-- The limb `tmp[n]` after `partitions_vec(tmp, n + 1)` on a fresh block. -/
def vec_last (bits : Nat) (lookup heap : Nat → Nat) (n : Nat) : Nat :=
  (partitions_vec (2 ^ bits) lookup (flint_malloc heap (n + 1)) (n + 1)).getD n 0

/-- The function `_partitions_fmpz_ui`. -/
def _partitions_fmpz_ui (bits : Nat) (lookup : Nat → Nat) (C : Collaborators Arb Arf Dbl)
    (heap : Nat → Nat) (n : Nat) (use_doubles : Bool) : Option Int :=
  match branch bits n use_doubles with
  | Branch.lookup => some (lookup n : Nat)
  | Branch.vec => some (vec_last bits lookup heap n : Nat)
  | Branch.floor_vec =>
    match C.arb_get_unique_fmpz (floor_enclosure C n) with
    | some res => some (res * 2 ^ 64 + (vec_last bits lookup heap n : Nat))
    | none => partitions_fmpz_fmpz_hrr C (n : Int) use_doubles
  | Branch.hrr => partitions_fmpz_fmpz_hrr C (n : Int) use_doubles

/-- The function `partitions_fmpz_fmpz`. -/
def partitions_fmpz_fmpz (bits : Nat) (lookup : Nat → Nat) (C : Collaborators Arb Arf Dbl)
    (heap : Nat → Nat) (n : Int) (use_doubles : Bool) : Option Int :=
  if n < 2000 then
    if n < 0 then some 0
    else _partitions_fmpz_ui bits lookup C heap n.toNat use_doubles
  else partitions_fmpz_fmpz_hrr C n use_doubles

/-- The function `partitions_fmpz_ui`. -/
def partitions_fmpz_ui (bits : Nat) (lookup : Nat → Nat) (C : Collaborators Arb Arf Dbl)
    (heap : Nat → Nat) (n : Nat) : Option Int :=
  _partitions_fmpz_ui bits lookup C heap n false

/-- The partition function: `p n` is the number of multisets of positive
integers with sum `n`. -/
def p (n : Nat) : Nat := Fintype.card (Nat.Partition n)

/-- The number of partitions of `n` into parts of size at most `m`. -/
def q (m n : Nat) : Nat :=
  (Finset.univ.filter (fun π : Nat.Partition n => ∀ i ∈ π.parts, i ≤ m)).card

/-- The pentagonal number `k (3 k - 1) / 2`. -/
def pent_minus (k : Nat) : Nat := k * (3 * k - 1) / 2

/-- The pentagonal number `k (3 k + 1) / 2`. -/
def pent_plus (k : Nat) : Nat := k * (3 * k + 1) / 2

/-- The triangular number `s (s + 1) / 2`. -/
def tri (s : Nat) : Nat := s * (s + 1) / 2

/-- The first `K` terms of Euler's recurrence at `n` for a sequence `f`. -/
def pent_terms (f : Nat → Int) (n : Nat) : Nat → Int
  | 0 => 0
  | K + 1 => pent_terms f n K + (if K % 2 = 0 then 1 else -1) *
      ((if pent_minus (K + 1) ≤ n then f (n - pent_minus (K + 1)) else 0)
        + (if pent_plus (K + 1) ≤ n then f (n - pent_plus (K + 1)) else 0))

/-- Modelled from the spec: the Lookup Table, the array `partitions_lookup` that
FLINT defines, "a fixed table of the first 128 exact values of p(n)". -/
def partitions_lookup_table : List Nat := [
  1, 1, 2, 3, 5, 7, 11, 15, 22, 30, 42, 56, 77, 101, 135, 176, 231, 297, 385, 490, 627, 792, 1002,
  1255, 1575, 1958, 2436, 3010, 3718, 4565, 5604, 6842, 8349, 10143, 12310, 14883, 17977, 21637,
  26015, 31185, 37338, 44583, 53174, 63261, 75175, 89134, 105558, 124754, 147273, 173525, 204226,
  239943, 281589, 329931, 386155, 451276, 526823, 614154, 715220, 831820, 966467, 1121505,
  1300156, 1505499, 1741630, 2012558, 2323520, 2679689, 3087735, 3554345, 4087968, 4697205,
  5392783, 6185689, 7089500, 8118264, 9289091, 10619863, 12132164, 13848650, 15796476, 18004327,
  20506255, 23338469, 26543660, 30167357, 34262962, 38887673, 44108109, 49995925, 56634173,
  64112359, 72533807, 82010177, 92669720, 104651419, 118114304, 133230930, 150198136, 169229875,
  190569292, 214481126, 241265379, 271248950, 304801365, 342325709, 384276336, 431149389,
  483502844, 541946240, 607163746, 679903203, 761002156, 851376628, 952050665, 1064144451,
  1188908248, 1327710076, 1482074143, 1653668665, 1844349560, 2056148051, 2291320912, 2552338241,
  2841940500, 3163127352, 3519222692, 3913864295]

/-- Modelled from the spec: the entry `partitions_lookup[n]` of the Lookup Table. -/
def partitions_lookup (n : Nat) : Nat := partitions_lookup_table.getD n 0

/-- The values `p 0, ..., p 417` in rows of 16, checked against Euler's recurrence
by `cert_ok_true` and identified with `p` by `p_eq_cert`. -/
def p_cert : List (List Nat) := [
  [1, 1, 2, 3, 5, 7, 11, 15, 22, 30, 42, 56, 77, 101, 135, 176],
  [231, 297, 385, 490, 627, 792, 1002, 1255, 1575, 1958, 2436, 3010, 3718, 4565, 5604, 6842],
  [8349, 10143, 12310, 14883, 17977, 21637, 26015, 31185, 37338, 44583, 53174, 63261, 75175,
   89134, 105558, 124754],
  [147273, 173525, 204226, 239943, 281589, 329931, 386155, 451276, 526823, 614154, 715220,
   831820, 966467, 1121505, 1300156, 1505499],
  [1741630, 2012558, 2323520, 2679689, 3087735, 3554345, 4087968, 4697205, 5392783, 6185689,
   7089500, 8118264, 9289091, 10619863, 12132164, 13848650],
  [15796476, 18004327, 20506255, 23338469, 26543660, 30167357, 34262962, 38887673, 44108109,
   49995925, 56634173, 64112359, 72533807, 82010177, 92669720, 104651419],
  [118114304, 133230930, 150198136, 169229875, 190569292, 214481126, 241265379, 271248950,
   304801365, 342325709, 384276336, 431149389, 483502844, 541946240, 607163746, 679903203],
  [761002156, 851376628, 952050665, 1064144451, 1188908248, 1327710076, 1482074143, 1653668665,
   1844349560, 2056148051, 2291320912, 2552338241, 2841940500, 3163127352, 3519222692, 3913864295],
  [4351078600, 4835271870, 5371315400, 5964539504, 6620830889, 7346629512, 8149040695,
   9035836076, 10015581680, 11097645016, 12292341831, 13610949895, 15065878135, 16670689208,
   18440293320, 20390982757],
  [22540654445, 24908858009, 27517052599, 30388671978, 33549419497, 37027355200, 40853235313,
   45060624582, 49686288421, 54770336324, 60356673280, 66493182097, 73232243759, 80630964769,
   88751778802, 97662728555],
  [107438159466, 118159068427, 129913904637, 142798995930, 156919475295, 172389800255,
   189334822579, 207890420102, 228204732751, 250438925115, 274768617130, 301384802048,
   330495499613, 362326859895, 397125074750, 435157697830],
  [476715857290, 522115831195, 571701605655, 625846753120, 684957390936, 749474411781,
   819876908323, 896684817527, 980462880430, 1071823774337, 1171432692373, 1280011042268,
   1398341745571, 1527273599625, 1667727404093, 1820701100652],
  [1987276856363, 2168627105469, 2366022741845, 2580840212973, 2814570987591, 3068829878530,
   3345365983698, 3646072432125, 3972999029388, 4328363658647, 4714566886083, 5134205287973,
   5590088317495, 6085253859260, 6622987708040, 7206841706490],
  [7840656226137, 8528581302375, 9275102575355, 10085065885767, 10963707205259, 11916681236278,
   12950095925895, 14070545699287, 15285151248481, 16601598107914, 18028182516671,
   19573856161145, 21248279009367, 23061871173849, 25025873760111, 27152408925615],
  [29454549941750, 31946390696157, 34643126322519, 37561133582570, 40718063627362,
   44132934884255, 47826239745920, 51820051838712, 56138148670947, 60806135438329,
   65851585970275, 71304185514919, 77195892663512, 83561103925871, 90436839668817, 97862933703585],
  [105882246722733, 114540884553038, 123888443077259, 133978259344888, 144867692496445,
   156618412527946, 169296722391554, 182973889854026, 197726516681672, 213636919820625,
   230793554364681, 249291451168559, 269232701252579, 290726957916112, 313891991306665,
   338854264248680],
  [365749566870782, 394723676655357, 425933084409356, 459545750448675, 495741934760846,
   534715062908609, 576672674947168, 621837416509615, 670448123060170, 722760953690372,
   779050629562167, 839611730366814, 904760108316360, 974834369944625, 1050197489931117,
   1131238503938606],
  [1218374349844333, 1312051800816215, 1412749565173450, 1520980492851175, 1637293969337171,
   1762278433057269, 1896564103591584, 2040825852575075, 2195786311682516, 2362219145337711,
   2540952590045698, 2732873183547535, 2938929793929555, 3160137867148997, 3397584011986773,
   3652430836071053],
  [3925922161489422, 4219388528587095, 4534253126900886, 4872038056472084, 5234371069753672,
   5622992691950605, 6039763882095515, 6486674127079088, 6965850144195831, 7479565078510584,
   8030248384943040, 8620496275465025, 9253082936723602, 9930972392403501, 10657331232548839,
   11435542077822104],
  [12269218019229465, 13162217895057704, 14118662665280005, 15142952738857194, 16239786535829663,
   17414180133147295, 18671488299600364, 20017426762576945, 21458096037352891, 23000006655487337,
   24650106150830490, 26415807633566326, 28305020340996003, 30326181989842964, 32488293351466654,
   34800954869440830],
  [37274405776748077, 39919565526999991, 42748078035954696, 45772358543578028, 49005643635237875,
   52462044228828641, 56156602112874289, 60105349839666544, 64325374609114550, 68834885946073850,
   73653287861850339, 78801255302666615, 84300815636225119, 90175434980549623, 96450110192202760,
   103151466321735325],
  [110307860425292772, 117949491546113972, 126108517833796355, 134819180623301520,
   144117936527873832, 154043597379576030, 164637479165761044, 175943559810422753,
   188008647052292980, 200882556287683159, 214618299743286299, 229272286871217150,
   244904537455382406, 261578907351144125, 279363328483702152, 298330063062758076],
  [318555973788329084, 340122810048577428, 363117512048110005, 387632532919029223,
   413766180933342362, 441622981929358437, 471314064268398780, 502957566506000020,
   536679070310691121, 572612058898037559, 610898403751884101, 651688879997206959,
   695143713458946040, 741433159884081684, 790738119649411319, 843250788562528427],
  [899175348396088349, 958728697912338045, 1022141228367345362, 1089657644424399782,
   1161537834849962850, 1238057794119125085, 1319510599727473500, 1406207446561484054,
   1498478743590581081, 1596675274490756791, 1701169427975813525, 1812356499739472950,
   1930656072350465812, 2056513475336633805, 2190401332423765131, 2332821198543892336],
  [2484305294265418180, 2645418340688763701, 2816759503217942792, 2998964447736452194,
   3192707518433532826, 3398704041358160275, 3617712763867604423, 3850538434667429186,
   4098034535626594791, 4361106170762284114, 4640713124699623515, 4937873096788191655,
   5253665124416975163, 5589233202595404488, 5945790114707874597, 6324621482504294325],
  [6727090051741041926, 7154640222653942321, 7608802843339879269, 8091200276484465581,
   8603551759348655060, 9147679068859117602, 9725512513742021729, 10339097267123947241,
   10990600063775926994, 11682316277192317780, 12416677403151190382, 13196258966925435702,
   14023788883518847344, 14902156290309948968, 15834420884488187770, 16823822787139235544],
  [17873792969689876004, 18987964267331664557]]

/-- The entry `k` of `p_cert` (and `0` from 418 on). -/
def p_cert_value (k : Nat) : Nat := (p_cert.getD (k / 16) []).getD (k % 16) 0

/-- The check that `p_cert` satisfies Euler's recurrence at every index from `1`
below `m` (17 terms of each kind reach every index below 477). -/
def cert_ok (m : Nat) : Bool :=
  (List.range m).all (fun n => n == 0 ||
    (p_cert_value n : Int) == pent_terms (fun k => (p_cert_value k : Int)) n 17)

/-- Balls with integer end points: `(lo, hi)` is the interval from `lo` to `hi`. -/
def ball_contains (x : Int × Int) (m : Int) : Prop := x.1 ≤ m ∧ m ≤ x.2

instance (x : Int × Int) (m : Int) : Decidable (ball_contains x m) := by
  unfold ball_contains; infer_instance

/-- A reference implementation of the collaborators on balls with integer end
points, used to instantiate the theorems: the series is summed exactly from a
table `P` of values, the leading term is `P n` up to `slack`, scaling by
`2 ^ e` with `e < 0` keeps the floors of the end points, and the extractor
succeeds on the balls that hold one integer. -/
def interval_collaborators (P : Nat → Nat) (slack : Int) : Collaborators (Int × Int) Int Unit where
  fmpz_get_d := fun _ => ()
  partitions_hrr_needed_terms := fun _ => 1
  partitions_hrr_sum_arb := fun n _ _ _ => ((P n.toNat : Int), (P n.toNat : Int))
  partitions_rademacher_bound := fun _ _ => 0
  arb_add_error_arf := fun x b => (x.1 - b, x.2 + b)
  arb_get_unique_fmpz := fun x => if x.1 = x.2 then some x.1 else none
  partitions_leading_fmpz := fun n _ => ((P n.toNat : Int) - slack, (P n.toNat : Int) + slack)
  arb_mul_2exp_si := fun x e =>
    if e < 0 then (x.1 / 2 ^ (-e).toNat, x.2 / 2 ^ (-e).toNat)
    else (x.1 * 2 ^ e.toNat, x.2 * 2 ^ e.toNat)
  arb_floor := fun x _ => x

/-- The contract of the extractor with respect to a membership relation
`contains x m` ("the integer `m` lies in the enclosure `x`"): it returns `m` only
when `m` is the one integer in the enclosure. -/
def ExtractorContract (C : Collaborators Arb Arf Dbl) (contains : Arb → Int → Prop) : Prop :=
  ∀ x m, C.arb_get_unique_fmpz x = some m → contains x m ∧ ∀ k, contains x k → k = m

/-- A block content for `flint_malloc`: every limb is `0`. -/
def zero_heap : Nat → Nat := fun _ => 0

/-- The regimes of the fixed-width fast path. -/
inductive Regime
  | lookup
  | hybrid
  | asymptotic
  deriving DecidableEq

/-- The regime a branch of `_partitions_fmpz_ui` belongs to: both branches that
run `partitions_vec` form the hybrid floor+residue method. -/
def Branch.regime : Branch → Regime
  | Branch.lookup => Regime.lookup
  | Branch.vec => Regime.hybrid
  | Branch.floor_vec => Regime.hybrid
  | Branch.hrr => Regime.asymptotic

/-- Euler's pentagonal recurrence over the entries of `v` below `n`, in the
words of the specification: the sum over `k ≥ 1` with `k (3 k - 1) / 2 ≤ n` of
`(-1) ^ (k + 1) * v[n - k (3 k - 1) / 2]` plus the sum over `k ≥ 1` with
`k (3 k + 1) / 2 ≤ n` of `(-1) ^ (k + 1) * v[n - k (3 k + 1) / 2]`, as an integer
(every such `k` is at most `n`). -/
def euler_sum (v : List Nat) (n : Nat) : Int :=
  ∑ k in (Finset.Icc 1 n).filter (fun k => k * (3 * k - 1) / 2 ≤ n),
      (-1) ^ (k + 1) * (v.getD (n - k * (3 * k - 1) / 2) 0 : Int)
  + ∑ k in (Finset.Icc 1 n).filter (fun k => k * (3 * k + 1) / 2 ≤ n),
      (-1) ^ (k + 1) * (v.getD (n - k * (3 * k + 1) / 2) 0 : Int)

/-- The collaborators `C` with the leading term routine replaced by `leading`. -/
def with_leading (C : Collaborators Arb Arf Dbl) (leading : Int → Int → Arb) :
    Collaborators Arb Arf Dbl :=
  ⟨C.fmpz_get_d, C.partitions_hrr_needed_terms, C.partitions_hrr_sum_arb,
    C.partitions_rademacher_bound, C.arb_add_error_arf, C.arb_get_unique_fmpz, leading,
    C.arb_mul_2exp_si, C.arb_floor⟩

/-- The load `v[n - j]` on a block whose limbs are `none` until they are written:
it fails (`none`) unless `1 ≤ j ≤ n`, the index `n - j` is inside the block and
the limb there has been written. -/
def checked_read (v : List (Option Nat)) (n j : Nat) : Option Nat :=
  if 1 ≤ j ∧ j ≤ n then v.getD (n - j) none else none

/-- The store `v[idx] = x` in a call with length `len`: it fails (`none`) unless
`idx < len` and `idx` is inside the block. -/
def checked_store (v : List (Option Nat)) (len idx x : Nat) : Option (List (Option Nat)) :=
  if idx < len ∧ idx < v.length then some (v.set idx (some x)) else none

/-- The inner loop of `partitions_vec` (see `pent_loop`) with every load
checked. -/
def pent_loop_checked (W : Nat) (v : List (Option Nat)) (n c : Nat) :
    Nat → Nat → Nat → Nat → Option (Nat × Nat)
  | 0, i, _, p => some (i, p)
  | fuel + 1, i, j, p =>
    if j ≤ n then
      match checked_read v n j with
      | some x => pent_loop_checked W v n c fuel (i + 1) (j + (3 * i + c)) ((x + (W - p % W)) % W)
      | none => none
    else some (i, p)

/-- The body of the second loop of `partitions_vec` (see `vec_entry`) with every
load checked. -/
def vec_entry_checked (W : Nat) (v : List (Option Nat)) (n : Nat) : Option Nat :=
  match pent_loop_checked W v n 1 (n + 1) 1 1 0 with
  | none => none
  | some r1 =>
    match pent_loop_checked W v n 2 (n + 1) 1 2
        (if r1.1 % 2 = 0 then limb_neg W r1.2 else r1.2) with
    | none => none
    | some r2 => some (if r2.1 % 2 ≠ 0 then limb_neg W r2.2 else r2.2)

/-- A loop `for (n = start; n < start + cnt; n++) body` whose body can fail. -/
def for_checked (body : List (Option Nat) → Nat → Option (List (Option Nat))) :
    List (Option Nat) → Nat → Nat → Option (List (Option Nat))
  | v, _, 0 => some v
  | v, start, cnt + 1 =>
    match body v start with
    | none => none
    | some w => for_checked body w (start + 1) cnt

/-- The function `partitions_vec` with every load and store checked. -/
def partitions_vec_checked (W : Nat) (lookup : Nat → Nat) (v : List (Option Nat)) (len : Nat) :
    Option (List (Option Nat)) :=
  match for_checked (fun v n => checked_store v len n (lookup n)) v 0
      (min len NUMBER_OF_SMALL_PARTITIONS) with
  | none => none
  | some v1 =>
    for_checked (fun v n =>
        match vec_entry_checked W v n with
        | none => none
        | some x => checked_store v len n x)
      v1 NUMBER_OF_SMALL_PARTITIONS (len - NUMBER_OF_SMALL_PARTITIONS)

/-- The checked block `vc` is the block `v` with exactly the limbs below `n`
written. -/
def Written (n : Nat) (vc : List (Option Nat)) (v : List Nat) : Prop :=
  vc.length = v.length ∧ (∀ k, k < n → vc.getD k none = some (v.getD k 0)) ∧
    (∀ k, n ≤ k → vc.getD k none = none)

/-- Collaborators on balls with integer end points whose extractor returns the
lower end point of every non-empty ball, the only integer in it or not: the full
series is enclosed by `(P n - 1, P n)` and the leading term is `P n`. Every
integer this extractor returns lies in its ball. -/
def lower_end_collaborators (P : Nat → Nat) : Collaborators (Int × Int) Int Unit where
  fmpz_get_d := fun _ => ()
  partitions_hrr_needed_terms := fun _ => 1
  partitions_hrr_sum_arb := fun n _ _ _ => ((P n.toNat : Int) - 1, (P n.toNat : Int))
  partitions_rademacher_bound := fun _ _ => 0
  arb_add_error_arf := fun x b => (x.1 - b, x.2 + b)
  arb_get_unique_fmpz := fun x => if x.1 ≤ x.2 then some x.1 else none
  partitions_leading_fmpz := fun n _ => ((P n.toNat : Int), (P n.toNat : Int))
  arb_mul_2exp_si := fun x e =>
    if e < 0 then (x.1 / 2 ^ (-e).toNat, x.2 / 2 ^ (-e).toNat)
    else (x.1 * 2 ^ e.toNat, x.2 * 2 ^ e.toNat)
  arb_floor := fun x _ => x

end Partitions

/-!
# Arb: the action of the modular group (`acb_modular/transform.c`)

A shallow embedding of `acb_modular_transform` in exact arithmetic: a real ball
(`arb_t`) is an element of a field `K`, a complex ball (`acb_t`) is the pair of
its real and imaginary parts, every ball operation is the exact field
operation and the precision argument is dropped. Integers (`fmpz_t`) are `Int`.
-/

namespace AcbModular

/-- The type `psl2z_t`: the entries of the matrix `(a b; c d)`. -/
structure psl2z where
  a : Int
  b : Int
  c : Int
  d : Int

/-- The normalisation of an element of `PSL(2, Z)`: determinant one, `c ≥ 0`, and
`d > 0` when `c = 0`. -/
def psl2z_is_correct (g : psl2z) : Prop :=
  g.a * g.d - g.b * g.c = 1 ∧ 0 ≤ g.c ∧ (g.c = 0 → 0 < g.d)

variable {K : Type} [Field K]

/-- The function `acb_add_fmpz`: `z + b`. -/
def acb_add_fmpz (z : K × K) (b : Int) : K × K := (z.1 + (b : K), z.2)

/-- The function `acb_inv`: `1 / z`, with `1 / (u + i v) = (u - i v) / (u² + v²)`. -/
def acb_inv (z : K × K) : K × K :=
  (z.1 / (z.1 * z.1 + z.2 * z.2), -z.2 / (z.1 * z.1 + z.2 * z.2))

/-- The function `acb_neg`: `-z`. -/
def acb_neg (z : K × K) : K × K := (-z.1, -z.2)

/-- The statements of the general branch of `acb_modular_transform` up to the two
divisions, in order: the result is `(re, im, den)`. -/
def transform_general (a b c d : Int) (x y : K) : K × K × K :=
  let im : K := x * x
  let im : K := im + y * y
  let t : Int := b * d
  let re : K := (t : K)
  let t : Int := b * c
  let t : Int := t + a * d
  let re : K := re + x * (t : K)
  let t : Int := a * c
  let re : K := re + im * (t : K)
  let t : Int := d * d
  let den : K := (t : K)
  let t : Int := c * d
  let t : Int := t * 2 ^ 1
  let den : K := den + x * (t : K)
  let t : Int := c * c
  let den : K := den + im * (t : K)
  let t : Int := a * d
  let t : Int := t - b * c
  let im : K := y * (t : K)
  (re, im, den)

/-- The function `acb_modular_transform` at `z = x + i y`. -/
def acb_modular_transform (g : psl2z) (z : K × K) : K × K :=
  if g.c = 0 then acb_add_fmpz z g.b
  else if g.a = 0 then acb_neg (acb_inv (acb_add_fmpz z g.d))
  else
    ((transform_general g.a g.b g.c g.d z.1 z.2).1 / (transform_general g.a g.b g.c g.d z.1 z.2).2.2,
      (transform_general g.a g.b g.c g.d z.1 z.2).2.1
        / (transform_general g.a g.b g.c g.d z.1 z.2).2.2)

end AcbModular

namespace Partitions

variable {Arb Arf Dbl : Type}

open Finset

/-! ## The partition function and Euler's pentagonal recurrence -/

theorem q_eq_p {m n : Nat} (h : n ≤ m) : q m n = p n := by
  unfold q p
  rw [Finset.filter_true_of_mem, Finset.card_univ]
  intro π _ i hi
  have := Multiset.le_sum_of_mem hi
  rw [π.parts_sum] at this
  omega

theorem q_zero_zero : q 0 0 = 1 := by
  rw [q_eq_p le_rfl]
  unfold p
  exact Fintype.card_unique

theorem q_zero_succ (n : Nat) : q 0 (n + 1) = 0 := by
  unfold q
  rw [Finset.card_eq_zero, Finset.filter_eq_empty_iff]
  intro π _ h
  have hs := π.parts_sum
  have : π.parts.sum = 0 := by
    apply Multiset.sum_eq_zero
    intro i hi
    have := h i hi
    omega
  omega


theorem q_split_no (m n : Nat) :
    ((Finset.univ.filter (fun π : Nat.Partition n => ∀ i ∈ π.parts, i ≤ m + 1)).filter
      (fun π => ¬ (m + 1) ∈ π.parts)).card = q m n := by
  unfold q
  congr 1
  ext π
  simp only [Finset.mem_filter, Finset.mem_univ, true_and]
  constructor
  · rintro ⟨h, hm⟩ i hi
    have := h i hi
    have : i ≠ m + 1 := fun e => hm (e ▸ hi)
    omega
  · intro h
    refine ⟨fun i hi => Nat.le_succ_of_le (h i hi), fun hm => ?_⟩
    have := h _ hm
    omega

theorem q_split_yes (m n : Nat) (h : m + 1 ≤ n) :
    ((Finset.univ.filter (fun π : Nat.Partition n => ∀ i ∈ π.parts, i ≤ m + 1)).filter
      (fun π => (m + 1) ∈ π.parts)).card = q (m + 1) (n - (m + 1)) := by
  unfold q
  refine Finset.card_bij'
    (fun π hπ => ⟨π.parts.erase (m + 1), fun hi => π.parts_pos (Multiset.mem_of_mem_erase hi), ?_⟩)
    (fun σ _ => ⟨(m + 1) ::ₘ σ.parts, ?_, ?_⟩) ?_ ?_ ?_ ?_
  · have hm : (m + 1) ∈ π.parts := (Finset.mem_filter.mp hπ).2
    have := Multiset.sum_erase hm
    rw [π.parts_sum] at this
    omega
  · intro i hi
    rcases Multiset.mem_cons.mp hi with rfl | hi
    · omega
    · exact σ.parts_pos hi
  · rw [Multiset.sum_cons, σ.parts_sum]
    omega
  · intro π hπ
    simp only [Finset.mem_filter, Finset.mem_univ, true_and] at hπ ⊢
    intro i hi
    exact hπ.1 i (Multiset.mem_of_mem_erase hi)
  · intro σ hσ
    simp only [Finset.mem_filter, Finset.mem_univ, true_and] at hσ ⊢
    refine ⟨fun i hi => ?_, Multiset.mem_cons_self _ _⟩
    rcases Multiset.mem_cons.mp hi with rfl | hi
    · exact le_rfl
    · exact hσ i hi
  · intro π hπ
    have hm : (m + 1) ∈ π.parts := (Finset.mem_filter.mp hπ).2
    ext1
    exact Multiset.cons_erase hm
  · intro σ hσ
    ext1
    exact Multiset.erase_cons_head _ _

theorem q_split_yes_small (m n : Nat) (h : ¬ m + 1 ≤ n) :
    ((Finset.univ.filter (fun π : Nat.Partition n => ∀ i ∈ π.parts, i ≤ m + 1)).filter
      (fun π => (m + 1) ∈ π.parts)).card = 0 := by
  rw [Finset.card_eq_zero, Finset.filter_eq_empty_iff]
  intro π _ hm
  have := Multiset.le_sum_of_mem hm
  rw [π.parts_sum] at this
  omega

/-- A partition into parts of size at most `m + 1` either has no part `m + 1`, or
is a partition of `n - (m + 1)` with one more part `m + 1`. -/
theorem q_succ (m n : Nat) :
    q (m + 1) n = q m n + (if m + 1 ≤ n then q (m + 1) (n - (m + 1)) else 0) := by
  have key := Finset.filter_card_add_filter_neg_card_eq_card
    (s := Finset.univ.filter (fun π : Nat.Partition n => ∀ i ∈ π.parts, i ≤ m + 1))
    (fun π => (m + 1) ∈ π.parts)
  rw [q_split_no] at key
  split_ifs with h
  · rw [q_split_yes m n h] at key
    unfold q at key ⊢
    omega
  · rw [q_split_yes_small m n h] at key
    unfold q at key ⊢
    omega

theorem Qser_zero : PowerSeries.mk (fun n => (q 0 n : ℤ)) = 1 := by
  ext n
  rw [PowerSeries.coeff_mk, PowerSeries.coeff_one]
  cases n with
  | zero => simp [q_zero_zero]
  | succ n => simp [q_zero_succ]

theorem Qser_succ (m : Nat) :
    PowerSeries.mk (fun n => (q (m + 1) n : ℤ))
        * (1 - (PowerSeries.X : PowerSeries ℤ) ^ (m + 1))
      = PowerSeries.mk (fun n => (q m n : ℤ)) := by
  ext n
  rw [mul_sub, mul_one, map_sub, PowerSeries.coeff_mul_X_pow']
  simp only [PowerSeries.coeff_mk]
  rw [q_succ m n]
  split_ifs <;> push_cast <;> ring

/-- The generating series of `q m` is the inverse of the product of the
`1 - X ^ k` for `1 ≤ k ≤ m`. -/
theorem Qser_mul_Pser (m : Nat) :
    PowerSeries.mk (fun n => (q m n : ℤ)) *
      ∏ k in Finset.range m, (1 - (PowerSeries.X : PowerSeries ℤ) ^ (k + 1)) = 1 := by
  induction m with
  | zero => simp [Qser_zero]
  | succ m ih =>
    rw [Finset.prod_range_succ, mul_left_comm, Qser_succ, mul_comm]
    exact ih

theorem pent_minus_succ (k : Nat) : pent_minus (k + 1) = pent_minus k + (3 * k + 1) := by
  unfold pent_minus
  have h : (k + 1) * (3 * (k + 1) - 1) = k * (3 * k - 1) + 2 * (3 * k + 1) := by
    cases k with
    | zero => rfl
    | succ j =>
      have e1 : 3 * (j + 1 + 1) - 1 = 3 * j + 5 := by omega
      have e2 : 3 * (j + 1) - 1 = 3 * j + 2 := by omega
      rw [e1, e2]; ring
  rw [h, Nat.add_mul_div_left _ _ (by norm_num : 0 < 2)]

theorem pent_plus_succ (k : Nat) : pent_plus (k + 1) = pent_plus k + (3 * k + 2) := by
  unfold pent_plus
  have h : (k + 1) * (3 * (k + 1) + 1) = k * (3 * k + 1) + 2 * (3 * k + 2) := by ring
  rw [h, Nat.add_mul_div_left _ _ (by norm_num : 0 < 2)]

theorem tri_succ (s : Nat) : tri (s + 1) = tri s + (s + 1) := by
  unfold tri
  have h : (s + 1) * (s + 1 + 1) = s * (s + 1) + 2 * (s + 1) := by ring
  rw [h, Nat.add_mul_div_left _ _ (by norm_num : 0 < 2)]

theorem pent_minus_zero : pent_minus 0 = 0 := rfl
theorem pent_plus_zero : pent_plus 0 = 0 := rfl
theorem tri_zero : tri 0 = 0 := rfl

theorem pent_minus_eq (n : Nat) : pent_minus (n + 1) = (n + 1) * (n + 1) + tri n := by
  induction n with
  | zero => rfl
  | succ n ih => rw [pent_minus_succ, ih, tri_succ]; ring

theorem pent_plus_eq (n : Nat) : pent_plus n = n * n + tri n := by
  induction n with
  | zero => rfl
  | succ n ih => rw [pent_plus_succ, ih, tri_succ]; ring

theorem shanks_step {A : Type*} [CommRing A] (x : A) (n : Nat) :
    ∑ s in range (n + 2), (-1) ^ s * (∏ j in Ico s (n + 1), (1 - x ^ (j + 1)))
        * x ^ (s * (n + 1) + tri s)
      = ∑ s in range (n + 1), (-1) ^ s * (∏ j in Ico s n, (1 - x ^ (j + 1)))
        * x ^ (s * n + tri s)
        + (-1) ^ (n + 1) * (x ^ pent_minus (n + 1) + x ^ pent_plus (n + 1)) := by
  -- the sum `B`
  have hB : ∑ s in range (n + 1), (-1) ^ s * (∏ j in Ico s n, (1 - x ^ (j + 1)))
        * x ^ ((s + 1) * (n + 1) + tri s)
      = ∑ t in range n, (-1) ^ t * (∏ j in Ico t n, (1 - x ^ (j + 1)))
        * x ^ ((t + 1) * (n + 1) + tri t) + (-1) ^ n * x ^ pent_minus (n + 1) := by
    rw [Finset.sum_range_succ, Finset.Ico_self, Finset.prod_empty, pent_minus_eq, mul_one]
  -- the sum `A`
  have hA : ∑ s in range (n + 1), (-1) ^ s * (∏ j in Ico s n, (1 - x ^ (j + 1)))
        * (x ^ (s * (n + 1) + tri s) - x ^ (s * n + tri s))
      = ∑ t in range n, (-1) ^ t * (∏ j in Ico t n, (1 - x ^ (j + 1)))
        * x ^ ((t + 1) * (n + 1) + tri t) := by
    rw [Finset.sum_range_succ']
    simp only [zero_mul, sub_self, mul_zero, add_zero]
    refine Finset.sum_congr rfl fun t ht => ?_
    have ht : t < n := Finset.mem_range.mp ht
    rw [Finset.prod_eq_prod_Ico_succ_bot ht]
    have e1 : (t + 1) * (n + 1) + tri (t + 1) = ((t + 1) * (n + 1) + tri t) + (t + 1) := by
      rw [tri_succ]; ring
    have e2 : (t + 1) * n + tri (t + 1) = (t + 1) * (n + 1) + tri t := by
      rw [tri_succ]; ring
    rw [e1, e2, pow_add _ _ (t + 1), pow_succ (-1 : A) t]
    ring
  have hsplit : ∑ s in range (n + 1), (-1) ^ s * (∏ j in Ico s (n + 1), (1 - x ^ (j + 1)))
        * x ^ (s * (n + 1) + tri s)
      = ∑ s in range (n + 1), (-1) ^ s * (∏ j in Ico s n, (1 - x ^ (j + 1)))
          * x ^ (s * n + tri s)
        + ∑ s in range (n + 1), (-1) ^ s * (∏ j in Ico s n, (1 - x ^ (j + 1)))
          * (x ^ (s * (n + 1) + tri s) - x ^ (s * n + tri s))
        - ∑ s in range (n + 1), (-1) ^ s * (∏ j in Ico s n, (1 - x ^ (j + 1)))
          * x ^ ((s + 1) * (n + 1) + tri s) := by
    rw [← Finset.sum_add_distrib, ← Finset.sum_sub_distrib]
    refine Finset.sum_congr rfl fun s hs => ?_
    have hs : s ≤ n := Nat.lt_succ_iff.mp (Finset.mem_range.mp hs)
    rw [Finset.prod_Ico_succ_top hs]
    have e : (s + 1) * (n + 1) + tri s = (s * (n + 1) + tri s) + (n + 1) := by ring
    rw [e, pow_add _ _ (n + 1)]
    ring
  rw [Finset.sum_range_succ _ (n + 1), hsplit, hA, hB, Finset.Ico_self, Finset.prod_empty,
    pent_plus_eq (n + 1), pow_succ (-1 : A) n]
  ring

/-- The finite form of the pentagonal number theorem (an identity of Shanks). -/
theorem shanks {A : Type*} [CommRing A] (x : A) (n : Nat) :
    ∑ s in range (n + 1), (-1) ^ s * (∏ j in Ico s n, (1 - x ^ (j + 1)))
        * x ^ (s * n + tri s)
      = 1 + ∑ k in range n, (-1) ^ (k + 1) * (x ^ pent_minus (k + 1) + x ^ pent_plus (k + 1)) := by
  induction n with
  | zero => simp [tri]
  | succ n ih => rw [shanks_step, ih, Finset.sum_range_succ, add_assoc]

theorem shanks_tail {A : Type*} [CommRing A] (x : A) (n : Nat) :
    ∃ G : A, 1 + ∑ k in range n, (-1) ^ (k + 1) * (x ^ pent_minus (k + 1) + x ^ pent_plus (k + 1))
      = ∏ k in range n, (1 - x ^ (k + 1)) + x ^ (n + 1) * G := by
  refine ⟨∑ t in range n, (-1) ^ (t + 1) * (∏ j in Ico (t + 1) n, (1 - x ^ (j + 1)))
    * x ^ (t * n + tri t + t), ?_⟩
  rw [← shanks, Finset.sum_range_succ', Finset.mul_sum, add_comm]
  congr 1
  · rw [Finset.range_eq_Ico, tri_zero]; simp
  · refine Finset.sum_congr rfl fun t _ => ?_
    have e : (t + 1) * n + tri (t + 1) = (n + 1) + (t * n + tri t + t) := by
      rw [tri_succ]; ring
    rw [e, pow_add]
    ring

theorem coeff_neg_one_pow_mul (j n : Nat) (Y : PowerSeries ℤ) :
    PowerSeries.coeff ℤ n ((-1) ^ j * Y) = (-1) ^ j * PowerSeries.coeff ℤ n Y := by
  rcases Nat.even_or_odd j with h | h
  · rw [h.neg_one_pow, h.neg_one_pow, one_mul, one_mul]
  · rw [h.neg_one_pow, h.neg_one_pow, neg_one_mul, neg_one_mul, map_neg]

theorem q_pentagonal (n : Nat) (hn : 1 ≤ n) :
    (q n n : ℤ) + ∑ k in range n, (-1) ^ (k + 1) *
      ((if pent_minus (k + 1) ≤ n then (q n (n - pent_minus (k + 1)) : ℤ) else 0)
        + (if pent_plus (k + 1) ≤ n then (q n (n - pent_plus (k + 1)) : ℤ) else 0)) = 0 := by
  obtain ⟨G, hG⟩ := shanks_tail (PowerSeries.X : PowerSeries ℤ) n
  have h1 : PowerSeries.coeff ℤ n (PowerSeries.mk (fun d => (q n d : ℤ)) *
      (1 + ∑ k in range n, (-1) ^ (k + 1) *
        ((PowerSeries.X : PowerSeries ℤ) ^ pent_minus (k + 1)
          + PowerSeries.X ^ pent_plus (k + 1))))
      = 0 := by
    rw [hG, mul_add, Qser_mul_Pser, mul_left_comm, map_add, PowerSeries.coeff_X_pow_mul',
      PowerSeries.coeff_one]
    rw [if_neg (by omega), if_neg (by omega), add_zero]
  rw [mul_add, mul_one, map_add, PowerSeries.coeff_mk, Finset.mul_sum, map_sum] at h1
  refine Eq.trans ?_ h1
  congr 1
  refine Finset.sum_congr rfl fun k _ => Eq.symm ?_
  rw [mul_left_comm, coeff_neg_one_pow_mul, mul_add (PowerSeries.mk _), map_add,
    PowerSeries.coeff_mul_X_pow', PowerSeries.coeff_mul_X_pow']
  simp only [PowerSeries.coeff_mk]

/-- Euler's pentagonal recurrence for the partition function. -/
theorem p_pentagonal (n : Nat) (hn : 1 ≤ n) :
    (p n : ℤ) = ∑ k in range n, (-1) ^ k *
      ((if pent_minus (k + 1) ≤ n then (p (n - pent_minus (k + 1)) : ℤ) else 0)
        + (if pent_plus (k + 1) ≤ n then (p (n - pent_plus (k + 1)) : ℤ) else 0)) := by
  have h := q_pentagonal n hn
  rw [q_eq_p le_rfl] at h
  have h2 : ∀ k ∈ range n, (-1 : ℤ) ^ (k + 1) *
      ((if pent_minus (k + 1) ≤ n then (q n (n - pent_minus (k + 1)) : ℤ) else 0)
        + (if pent_plus (k + 1) ≤ n then (q n (n - pent_plus (k + 1)) : ℤ) else 0))
      = - ((-1) ^ k * ((if pent_minus (k + 1) ≤ n then (p (n - pent_minus (k + 1)) : ℤ) else 0)
        + (if pent_plus (k + 1) ≤ n then (p (n - pent_plus (k + 1)) : ℤ) else 0))) := by
    intro k _
    rw [q_eq_p (Nat.sub_le _ _), q_eq_p (Nat.sub_le _ _), pow_succ]
    ring
  rw [Finset.sum_congr rfl h2, Finset.sum_neg_distrib] at h
  linarith
/-! ## The recurrence loops of `partitions_vec` -/

theorem cast_limb_sub (W : Nat) (hW : 0 < W) (a p : Nat) :
    (((a + (W - p % W)) % W : Nat) : ZMod W) = (a : ZMod W) - (p : ZMod W) := by
  rw [ZMod.natCast_mod, Nat.cast_add, Nat.cast_sub (Nat.mod_lt p hW).le, ZMod.natCast_self,
    ZMod.natCast_mod]
  ring

theorem cast_limb_neg (W : Nat) (hW : 0 < W) (p : Nat) :
    ((limb_neg W p : Nat) : ZMod W) = - (p : ZMod W) := by
  have := cast_limb_sub W hW 0 p
  simpa [limb_neg] using this

/-- Fuel beyond `n + 1 - j` is never used. -/
theorem pent_loop_fuel (W : Nat) (v : List Nat) (n c : Nat) (hc : 1 ≤ c) (extra : Nat) :
    ∀ fuel i j p, n < j + fuel →
      pent_loop W v n c (fuel + extra) i j p = pent_loop W v n c fuel i j p := by
  intro fuel
  induction fuel with
  | zero =>
    intro i j p h
    cases extra with
    | zero => rfl
    | succ e =>
      rw [Nat.zero_add, pent_loop, pent_loop, if_neg (by omega)]
  | succ fuel ih =>
    intro i j p h
    rw [Nat.add_right_comm, pent_loop, pent_loop]
    split_ifs with hj
    · exact ih _ _ _ (by omega)
    · rfl

/-- The inner loop run from index `i` leaves at the first index whose pentagonal
number exceeds `n`, having folded the entries read into `p` with alternating
signs. -/
theorem pent_loop_spec (W : Nat) (hW : 0 < W) (v : List Nat) (n c : Nat) (hc : 1 ≤ c)
    (g : Nat → Nat) (hg : ∀ i, g (i + 1) = g i + (3 * i + c)) :
    ∀ fuel i p, n < g i + fuel →
      i ≤ (pent_loop W v n c fuel i (g i) p).1 ∧
      n < g (pent_loop W v n c fuel i (g i) p).1 ∧
      (∀ k, i ≤ k → k < (pent_loop W v n c fuel i (g i) p).1 → g k ≤ n) ∧
      (-1) ^ (pent_loop W v n c fuel i (g i) p).1 *
          (((pent_loop W v n c fuel i (g i) p).2 : Nat) : ZMod W)
        = (-1) ^ i * (p : ZMod W)
          - ∑ k in Ico i (pent_loop W v n c fuel i (g i) p).1,
              (-1) ^ k * ((v.getD (n - g k) 0 : Nat) : ZMod W) := by
  intro fuel
  induction fuel with
  | zero =>
    intro i p h
    rw [pent_loop]
    dsimp only
    exact ⟨le_refl _, by omega, fun k h1 h2 => by omega, by simp⟩
  | succ fuel ih =>
    intro i p h
    rw [pent_loop]
    split_ifs with hj
    · rw [← hg i]
      obtain ⟨h1, h2, h3, h4⟩ := ih (i + 1) ((v.getD (n - g i) 0 + (W - p % W)) % W)
        (by rw [hg i]; omega)
      refine ⟨by omega, h2, fun k hk1 hk2 => ?_, ?_⟩
      · rcases Nat.eq_or_lt_of_le hk1 with rfl | hk
        · exact hj
        · exact h3 k hk hk2
      · rw [h4, Finset.sum_eq_sum_Ico_succ_bot (by omega : i < _), cast_limb_sub W hW, pow_succ]
        ring
    · dsimp only
      exact ⟨le_refl _, by omega, fun k h1 h2 => by omega, by simp⟩

theorem pent_seq_mono (g : Nat → Nat) (c : Nat) (hg : ∀ i, g (i + 1) = g i + (3 * i + c)) :
    ∀ d k, g k ≤ g (k + d) := by
  intro d
  induction d with
  | zero => intro k; exact le_rfl
  | succ d ih =>
    intro k
    have := ih k
    rw [← Nat.add_assoc, hg]
    omega

theorem pent_seq_ge (g : Nat → Nat) (c : Nat) (hc : 1 ≤ c)
    (hg : ∀ i, g (i + 1) = g i + (3 * i + c)) : ∀ k, k ≤ g k := by
  intro k
  induction k with
  | zero => exact Nat.zero_le _
  | succ k ih => rw [hg]; omega

theorem pent_sum_convert {R : Type*} [CommRing R] (g : Nat → Nat) (c : Nat) (hc : 1 ≤ c)
    (hg : ∀ i, g (i + 1) = g i + (3 * i + c)) (f : Nat → R) (n e : Nat)
    (h1 : 1 ≤ e) (h2 : n < g e) (h3 : ∀ k, 1 ≤ k → k < e → g k ≤ n) :
    ∑ k in Ico 1 e, (-1) ^ k * f (n - g k)
      = - ∑ k in range n, (-1) ^ k * (if g (k + 1) ≤ n then f (n - g (k + 1)) else 0) := by
  have hsub : range (e - 1) ⊆ range n := by
    intro k hk
    rw [Finset.mem_range] at hk ⊢
    have := h3 (k + 1) (by omega) (by omega)
    have := pent_seq_ge g c hc hg (k + 1)
    omega
  rw [Finset.sum_Ico_eq_sum_range, ← Finset.sum_neg_distrib, ← Finset.sum_subset hsub]
  · refine Finset.sum_congr rfl fun k hk => ?_
    rw [Finset.mem_range] at hk
    rw [if_pos (h3 (k + 1) (by omega) (by omega)), Nat.add_comm 1 k, pow_succ]
    ring
  · intro k _ hk
    rw [Finset.mem_range] at hk
    have hle : g e ≤ g (e + (k + 1 - e)) := pent_seq_mono g c hg _ _
    rw [show e + (k + 1 - e) = k + 1 by omega] at hle
    rw [if_neg (by omega), mul_zero, neg_zero]

theorem cast_fix_even (W : Nat) (hW : 0 < W) (i r : Nat) :
    (((if i % 2 = 0 then limb_neg W r else r : Nat)) : ZMod W) = - ((-1) ^ i * (r : ZMod W)) := by
  split_ifs with h
  · rw [cast_limb_neg W hW, (Nat.even_iff.mpr h).neg_one_pow, one_mul]
  · rw [(Nat.odd_iff.mpr (by omega)).neg_one_pow, neg_one_mul, neg_neg]

theorem cast_fix_odd (W : Nat) (hW : 0 < W) (i r : Nat) :
    (((if i % 2 ≠ 0 then limb_neg W r else r : Nat)) : ZMod W) = (-1) ^ i * (r : ZMod W) := by
  split_ifs with h
  · rw [cast_limb_neg W hW, (Nat.odd_iff.mpr (by omega)).neg_one_pow, neg_one_mul]
  · rw [(Nat.even_iff.mpr (by omega)).neg_one_pow, one_mul]

/-- The limb stored in `v[n]` is, modulo `W`, the sum of Euler's recurrence over
the earlier entries. -/
theorem vec_entry_cast (W : Nat) (hW : 0 < W) (v : List Nat) (n : Nat) :
    ((vec_entry W v n : Nat) : ZMod W) = ∑ k in range n, (-1) ^ k *
      ((if pent_minus (k + 1) ≤ n then ((v.getD (n - pent_minus (k + 1)) 0 : Nat) : ZMod W) else 0)
        + (if pent_plus (k + 1) ≤ n then ((v.getD (n - pent_plus (k + 1)) 0 : Nat) : ZMod W)
            else 0)) := by
  have e1 : pent_minus 1 = 1 := rfl
  have e2 : pent_plus 1 = 2 := rfl
  -- first loop
  obtain ⟨a1, a2, a3, a4⟩ := pent_loop_spec W hW v n 1 le_rfl pent_minus pent_minus_succ
    (n + 1) 1 0 (by omega)
  rw [e1] at a1 a2 a3 a4
  rw [pent_sum_convert pent_minus 1 le_rfl pent_minus_succ
    (fun m => ((v.getD m 0 : Nat) : ZMod W)) n _ a1 a2 a3, Nat.cast_zero, mul_zero, zero_sub,
    neg_neg] at a4
  -- second loop
  obtain ⟨b1, b2, b3, b4⟩ := pent_loop_spec W hW v n 2 (by norm_num) pent_plus pent_plus_succ
    (n + 1) 1 (if (pent_loop W v n 1 (n + 1) 1 1 0).1 % 2 = 0
      then limb_neg W (pent_loop W v n 1 (n + 1) 1 1 0).2
      else (pent_loop W v n 1 (n + 1) 1 1 0).2) (by omega)
  rw [e2] at b1 b2 b3 b4
  rw [pent_sum_convert pent_plus 2 (by norm_num) pent_plus_succ
    (fun m => ((v.getD m 0 : Nat) : ZMod W)) n _ b1 b2 b3, cast_fix_even W hW, a4, pow_one,
    neg_one_mul, neg_neg, sub_neg_eq_add, ← Finset.sum_add_distrib] at b4
  unfold vec_entry
  dsimp only
  rw [cast_fix_odd W hW, b4]
  refine Finset.sum_congr rfl fun k _ => ?_
  ring

theorem limb_neg_lt (W : Nat) (hW : 0 < W) (p : Nat) : limb_neg W p < W :=
  Nat.mod_lt _ hW

theorem pent_loop_lt (W : Nat) (hW : 0 < W) (v : List Nat) (n c : Nat) :
    ∀ fuel i j p, p < W → (pent_loop W v n c fuel i j p).2 < W := by
  intro fuel
  induction fuel with
  | zero => intro i j p h; exact h
  | succ fuel ih =>
    intro i j p h
    rw [pent_loop]
    split_ifs
    · exact ih _ _ _ (Nat.mod_lt _ hW)
    · exact h

theorem limb_fix_lt (W : Nat) (hW : 0 < W) (c : Prop) [Decidable c] (r : Nat) (h : r < W) :
    (if c then limb_neg W r else r) < W := by
  split_ifs
  · exact limb_neg_lt W hW _
  · exact h

theorem vec_entry_lt (W : Nat) (hW : 0 < W) (v : List Nat) (n : Nat) :
    vec_entry W v n < W := by
  unfold vec_entry
  dsimp only
  exact limb_fix_lt W hW _ _ (pent_loop_lt W hW v n 2 _ _ _ _
    (limb_fix_lt W hW _ _ (pent_loop_lt W hW v n 1 _ _ _ _ hW)))

theorem getD_set (l : List Nat) (i j a : Nat) :
    (l.set i a).getD j 0 = if i = j ∧ i < l.length then a else l.getD j 0 := by
  simp only [List.getD_eq_getElem?_getD, List.getElem?_set]
  by_cases h : i = j
  · subst h
    by_cases h2 : i < l.length
    · simp [h2]
    · simp [h2, List.getElem?_eq_none (Nat.le_of_not_lt h2)]
  · simp [h]

theorem fold_set_range (f : Nat → Nat) (v : List Nat) (m : Nat) :
    ((List.range m).foldl (fun v n => v.set n (f n)) v).length = v.length ∧
    ∀ k, ((List.range m).foldl (fun v n => v.set n (f n)) v).getD k 0
      = if k < m ∧ k < v.length then f k else v.getD k 0 := by
  induction m with
  | zero => simp
  | succ m ih =>
    obtain ⟨h1, h2⟩ := ih
    rw [List.range_succ, List.foldl_append]
    simp only [List.foldl_cons, List.foldl_nil, List.length_set]
    refine ⟨h1, fun k => ?_⟩
    rw [getD_set, h2 k, h1]
    by_cases hk : m = k
    · subst hk
      by_cases hl : m < v.length
      · simp [hl]
      · simp [hl]
    · have : ¬ (m = k ∧ m < v.length) := fun h => hk h.1
      rw [if_neg this]
      by_cases hk2 : k < m
      · simp [hk2, Nat.lt_succ_of_lt hk2]
      · have : ¬ k < m + 1 := by omega
        simp [hk2, this]

theorem vec_seed_length (lookup : Nat → Nat) (v : List Nat) (len : Nat) :
    (vec_seed lookup v len).length = v.length :=
  (fold_set_range lookup v _).1

theorem vec_seed_getD (lookup : Nat → Nat) (v : List Nat) (len k : Nat) :
    (vec_seed lookup v len).getD k 0
      = if k < min len NUMBER_OF_SMALL_PARTITIONS ∧ k < v.length then lookup k
        else v.getD k 0 :=
  (fold_set_range lookup v _).2 k

theorem vec_fill_succ (W : Nat) (v : List Nat) (start cnt : Nat) :
    vec_fill W v start (cnt + 1)
      = vec_fill W (v.set start (vec_entry W v start)) (start + 1) cnt := rfl

theorem vec_fill_length (W : Nat) : ∀ (cnt start : Nat) (v : List Nat),
    (vec_fill W v start cnt).length = v.length := by
  intro cnt
  induction cnt with
  | zero => intro start v; rfl
  | succ cnt ih => intro start v; rw [vec_fill_succ, ih, List.length_set]

/-- Entries below `start` are not touched by the second loop. -/
theorem vec_fill_below (W : Nat) : ∀ (cnt start : Nat) (v : List Nat) (k : Nat), k < start →
    (vec_fill W v start cnt).getD k 0 = v.getD k 0 := by
  intro cnt
  induction cnt with
  | zero => intro start v k _; rfl
  | succ cnt ih =>
    intro start v k hk
    rw [vec_fill_succ, ih _ _ _ (Nat.lt_succ_of_lt hk), getD_set,
      if_neg (fun h => by omega)]

/-- The entry at `start` after the second loop is the one stored by its first
iteration. -/
theorem vec_fill_at (W : Nat) (cnt start : Nat) (v : List Nat) (h : start < v.length) :
    (vec_fill W v start (cnt + 1)).getD start 0 = vec_entry W v start := by
  rw [vec_fill_succ, vec_fill_below W cnt (start + 1) _ start (Nat.lt_succ_self _), getD_set,
    if_pos ⟨rfl, h⟩]

theorem pent_minus_ge (k : Nat) : k ≤ pent_minus k :=
  pent_seq_ge pent_minus 1 le_rfl pent_minus_succ k

theorem pent_plus_ge (k : Nat) : k ≤ pent_plus k :=
  pent_seq_ge pent_plus 2 (by norm_num) pent_plus_succ k

/-- One pass of the loop body over a vector that holds `p k mod W` below `n`
stores `p n mod W`. -/
theorem vec_entry_value (W : Nat) (hW : 0 < W) (v : List Nat) (n : Nat) (hn : 1 ≤ n)
    (hv : ∀ k < n, v.getD k 0 = p k % W) : vec_entry W v n = p n % W := by
  have hc : ((vec_entry W v n : Nat) : ZMod W) = ((p n : Nat) : ZMod W) := by
    rw [vec_entry_cast W hW]
    have hp := congrArg (Int.cast : ℤ → ZMod W) (p_pentagonal n hn)
    push_cast at hp
    rw [hp]
    refine Finset.sum_congr rfl fun k _ => ?_
    have h1 := pent_minus_ge (k + 1)
    have h2 := pent_plus_ge (k + 1)
    congr 2
    · split_ifs with h
      · rw [hv _ (by omega), ZMod.natCast_mod]
      · rfl
    · split_ifs with h
      · rw [hv _ (by omega), ZMod.natCast_mod]
      · rfl
  have := (ZMod.natCast_eq_natCast_iff' _ _ _).mp hc
  rw [Nat.mod_eq_of_lt (vec_entry_lt W hW v n)] at this
  exact this

theorem vec_fill_spec (W : Nat) (hW : 0 < W) : ∀ (cnt start : Nat) (v : List Nat),
    1 ≤ start → start + cnt ≤ v.length → (∀ k < start, v.getD k 0 = p k % W) →
    ∀ k < start + cnt, (vec_fill W v start cnt).getD k 0 = p k % W := by
  intro cnt
  induction cnt with
  | zero => intro start v _ _ hv k hk; exact hv k hk
  | succ cnt ih =>
    intro start v hs hlen hv k hk
    rw [vec_fill_succ]
    refine ih (start + 1) _ (by omega) (by rw [List.length_set]; omega) (fun j hj => ?_) k
      (by omega)
    rw [getD_set]
    split_ifs with h
    · rw [← h.1]
      exact vec_entry_value W hW v start hs hv
    · exact hv j (by
        rcases Nat.lt_succ_iff_lt_or_eq.mp hj with h1 | h1
        · exact h1
        · exact absurd ⟨h1.symm, by omega⟩ h)

/-- The recurrence with the table as seed: entry `k` of the vector is
`p k mod W`, provided the table holds `p` and its entries are limbs. -/
theorem partitions_vec_spec (W : Nat) (hW : 0 < W) (lookup : Nat → Nat)
    (hlookup : ∀ k, k < 128 → lookup k = p k) (hsmall : ∀ k, k < 128 → p k < W)
    (v : List Nat) (len : Nat) (hlen : len ≤ v.length) :
    ∀ k < len, (partitions_vec W lookup v len).getD k 0 = p k % W := by
  intro k hk
  unfold partitions_vec
  have hseed : ∀ j < min len NUMBER_OF_SMALL_PARTITIONS,
      (vec_seed lookup v len).getD j 0 = p j % W := by
    intro j hj
    have hj2 : j < 128 := lt_of_lt_of_le hj (min_le_right _ _)
    rw [vec_seed_getD, if_pos ⟨hj, by have := min_le_left len NUMBER_OF_SMALL_PARTITIONS; omega⟩,
      hlookup j hj2, Nat.mod_eq_of_lt (hsmall j hj2)]
  by_cases hl : len ≤ NUMBER_OF_SMALL_PARTITIONS
  · rw [Nat.sub_eq_zero_of_le hl]
    exact hseed k (by rw [min_eq_left hl]; exact hk)
  · have hl2 : NUMBER_OF_SMALL_PARTITIONS ≤ len := by omega
    refine vec_fill_spec W hW _ _ _ (by decide) ?_ ?_ k (by omega)
    · rw [vec_seed_length]; omega
    · intro j hj
      exact hseed j (by rw [min_eq_right hl2]; exact hj)

/-! ## The values of `p` below 418 -/

theorem pent_terms_eq_sum (f : Nat → Int) (n K : Nat) :
    pent_terms f n K = ∑ k in range K, (-1) ^ k *
      ((if pent_minus (k + 1) ≤ n then f (n - pent_minus (k + 1)) else 0)
        + (if pent_plus (k + 1) ≤ n then f (n - pent_plus (k + 1)) else 0)) := by
  induction K with
  | zero => rfl
  | succ K ih =>
    rw [pent_terms, ih, Finset.sum_range_succ]
    congr 2
    rcases Nat.even_or_odd K with h | h
    · rw [if_pos (Nat.even_iff.mp h), h.neg_one_pow]
    · rw [if_neg (by have := Nat.odd_iff.mp h; omega), h.neg_one_pow]

theorem pent_minus_le_plus (k : Nat) : pent_minus k ≤ pent_plus k :=
  Nat.div_le_div_right (Nat.mul_le_mul_left k (by omega))

/-- Beyond the first pentagonal number above `n` the terms of the recurrence
vanish. -/
theorem pent_sum_stable (f : Nat → Int) (n K : Nat) (h : n < pent_minus (K + 1)) :
    ∑ k in range K, (-1) ^ k *
      ((if pent_minus (k + 1) ≤ n then f (n - pent_minus (k + 1)) else 0)
        + (if pent_plus (k + 1) ≤ n then f (n - pent_plus (k + 1)) else 0))
    = ∑ k in range n, (-1) ^ k *
      ((if pent_minus (k + 1) ≤ n then f (n - pent_minus (k + 1)) else 0)
        + (if pent_plus (k + 1) ≤ n then f (n - pent_plus (k + 1)) else 0)) := by
  have hzero : ∀ k, (K ≤ k ∨ n ≤ k) → (-1 : Int) ^ k *
      ((if pent_minus (k + 1) ≤ n then f (n - pent_minus (k + 1)) else 0)
        + (if pent_plus (k + 1) ≤ n then f (n - pent_plus (k + 1)) else 0)) = 0 := by
    intro k hk
    have hlt : n < pent_minus (k + 1) := by
      rcases hk with hk | hk
      · have hm := pent_seq_mono pent_minus 1 pent_minus_succ (k - K) (K + 1)
        rw [show K + 1 + (k - K) = k + 1 by omega] at hm
        omega
      · have := pent_minus_ge (k + 1)
        omega
    have hlt2 := pent_minus_le_plus (k + 1)
    rw [if_neg (by omega), if_neg (by omega), add_zero, mul_zero]
  rw [Finset.sum_subset (Finset.range_subset.mpr (le_max_left K n))
      (fun k _ hk => hzero k (Or.inl (by simpa using hk))),
    Finset.sum_subset (Finset.range_subset.mpr (le_max_right K n))
      (fun k _ hk => hzero k (Or.inr (by simpa using hk)))]

set_option maxRecDepth 100000 in
theorem cert_ok_true : cert_ok 418 = true := by decide!

theorem p_zero : p 0 = 1 := Fintype.card_unique

theorem cert_rec (n : Nat) (h0 : 1 ≤ n) (h : n < 418) :
    (p_cert_value n : Int) = pent_terms (fun k => (p_cert_value k : Int)) n 17 := by
  have := cert_ok_true
  unfold cert_ok at this
  rw [List.all_eq_true] at this
  have := this n (List.mem_range.mpr h)
  simp only [Bool.or_eq_true, beq_iff_eq] at this
  rcases this with h1 | h1
  · omega
  · exact h1

/-- The list `p_cert` holds the partition numbers. -/
theorem p_eq_cert : ∀ n, n < 418 → p n = p_cert_value n := by
  intro n
  induction n using Nat.strong_induction_on with
  | _ n ih =>
    intro hn
    rcases Nat.eq_zero_or_pos n with h0 | h0
    · subst h0; rw [p_zero]; rfl
    · have hc := cert_rec n h0 hn
      rw [pent_terms_eq_sum] at hc
      replace hc := hc.trans (pent_sum_stable (fun k => (p_cert_value k : Int)) n 17 (by
        have : pent_minus (17 + 1) = 477 := by decide
        omega))
      have hp := p_pentagonal n h0
      have : (p n : Int) = (p_cert_value n : Int) := by
        rw [hp, hc]
        refine Finset.sum_congr rfl fun k _ => ?_
        have h1 := pent_minus_ge (k + 1)
        have h2 := pent_plus_ge (k + 1)
        congr 2
        · split_ifs with h
          · rw [ih _ (by omega) (by omega)]
          · rfl
        · split_ifs with h
          · rw [ih _ (by omega) (by omega)]
          · rfl
      exact_mod_cast this

set_option maxRecDepth 100000 in
theorem p_cert_lt : ∀ n, n < 417 → p_cert_value n < 2 ^ 64 := by decide!

set_option maxRecDepth 100000 in
theorem lookup_eq_cert : ∀ k, k < 128 →
    partitions_lookup k = p_cert_value k ∧ partitions_lookup k < 2 ^ 32 := by decide!

/-- Below 417 the partition numbers fit in a 64 bit limb. -/
theorem p_lt_two_pow_64 (n : Nat) (h : n < 417) : p n < 2 ^ 64 := by
  rw [p_eq_cert n (by omega)]; exact p_cert_lt n h

/-- The modelled table holds the partition numbers. -/
theorem partitions_lookup_eq_p (k : Nat) (h : k < 128) : partitions_lookup k = p k := by
  rw [p_eq_cert k (by omega)]; exact (lookup_eq_cert k h).1

theorem p_lt_two_pow_32 (k : Nat) (h : k < 128) : p k < 2 ^ 32 := by
  rw [← partitions_lookup_eq_p k h]; exact (lookup_eq_cert k h).2

/-! ## The dispatcher -/

theorem vec_fill_entry_lt (W : Nat) (hW : 0 < W) : ∀ (cnt start : Nat) (v : List Nat) (k : Nat),
    start ≤ k → k < start + cnt → k < v.length → (vec_fill W v start cnt).getD k 0 < W := by
  intro cnt
  induction cnt with
  | zero => intro start v k h1 h2 _; omega
  | succ cnt ih =>
    intro start v k h1 h2 h3
    rcases Nat.eq_or_lt_of_le h1 with h | h
    · subst h
      rw [vec_fill_at W cnt start v h3]
      exact vec_entry_lt W hW v start
    · rw [vec_fill_succ]
      exact ih (start + 1) _ k h (by omega) (by rw [List.length_set]; exact h3)

theorem flint_malloc_length (heap : Nat → Nat) (cnt : Nat) :
    (flint_malloc heap cnt).length = cnt := by
  unfold flint_malloc
  rw [List.length_map, List.length_range]

/-- The limb read back in the hybrid branch is a limb. -/
theorem vec_last_lt (bits : Nat) (lookup heap : Nat → Nat) (n : Nat) (h : 128 ≤ n) :
    vec_last bits lookup heap n < 2 ^ bits := by
  unfold vec_last partitions_vec
  refine vec_fill_entry_lt _ (Nat.two_pow_pos _) _ _ _ n h ?_ ?_
  · show n < 128 + (n + 1 - 128)
    omega
  · rw [vec_seed_length, flint_malloc_length]
    exact Nat.lt_succ_self n

/-- The limb read back in the hybrid branch is `p n mod 2 ^ 64`. -/
theorem vec_last_eq (lookup heap : Nat → Nat) (hlookup : ∀ k, k < 128 → lookup k = p k)
    (n : Nat) : vec_last 64 lookup heap n = p n % 2 ^ 64 := by
  unfold vec_last
  refine partitions_vec_spec _ (Nat.two_pow_pos _) lookup hlookup ?_ _ _ ?_ n
    (Nat.lt_succ_self n)
  · intro k hk
    exact lt_trans (p_lt_two_pow_32 k hk) (by norm_num)
  · rw [flint_malloc_length]

theorem branch_lookup {bits n : Nat} {ud : Bool} (h : n < 128) :
    branch bits n ud = Branch.lookup := by
  unfold branch NUMBER_OF_SMALL_PARTITIONS
  rw [if_pos h]

theorem branch_vec {n : Nat} {ud : Bool} (h1 : 128 ≤ n) (h2 : n < 417) :
    branch 64 n ud = Branch.vec := by
  unfold branch NUMBER_OF_SMALL_PARTITIONS
  rw [if_neg (by omega), if_pos ⟨rfl, Or.inl (by omega)⟩, if_pos h2]

theorem branch_floor_vec {n : Nat} {ud : Bool} (h1 : 417 ≤ n)
    (h2 : n < 500 ∨ (ud = false ∧ n < 1200)) : branch 64 n ud = Branch.floor_vec := by
  unfold branch NUMBER_OF_SMALL_PARTITIONS
  rw [if_neg (by omega), if_pos ⟨rfl, h2⟩, if_neg (by omega)]

theorem branch_hrr {bits n : Nat} {ud : Bool} (h1 : 128 ≤ n)
    (h2 : ¬ (bits = 64 ∧ (n < 500 ∨ (ud = false ∧ n < 1200)))) :
    branch bits n ud = Branch.hrr := by
  unfold branch NUMBER_OF_SMALL_PARTITIONS
  rw [if_neg (by omega), if_neg h2]

/-- Under the extractor contract the full asymptotic path returns the integer
its enclosure is known to hold. -/
theorem hrr_exact (C : Collaborators Arb Arf Dbl) (contains : Arb → Int → Prop)
    (hC : ExtractorContract C contains) (n : Int) (ud : Bool) (P : Int)
    (hP : contains (hrr_enclosure C n ud) P) (r : Int)
    (hr : partitions_fmpz_fmpz_hrr C n ud = some r) : r = P := by
  unfold partitions_fmpz_fmpz_hrr at hr
  cases hx : C.arb_get_unique_fmpz (hrr_enclosure C n ud) with
  | none => rw [hx] at hr; cases hr
  | some m =>
    rw [hx] at hr
    cases hr
    exact ((hC _ _ hx).2 P hP).symm

theorem ui_exact (bits : Nat) (lookup : Nat → Nat) (C : Collaborators Arb Arf Dbl)
    (contains : Arb → Int → Prop) (heap : Nat → Nat) (n : Nat)
    (h_i : ∀ k, k < 128 → lookup k = p k)
    (h_ii : ∀ ud, contains (hrr_enclosure C (n : Int) ud) (p n : Int))
    (h_iii : contains (floor_enclosure C n) ((p n : Int) / 2 ^ 64))
    (h_iv : ExtractorContract C contains) (ud : Bool) (r : Int)
    (hr : _partitions_fmpz_ui bits lookup C heap n ud = some r) : r = (p n : Int) := by
  unfold _partitions_fmpz_ui at hr
  by_cases h128 : n < 128
  · rw [branch_lookup h128] at hr
    cases hr
    rw [h_i n h128]
  · by_cases hyb : bits = 64 ∧ (n < 500 ∨ (ud = false ∧ n < 1200))
    · obtain ⟨hb, hyb⟩ := hyb
      subst hb
      by_cases h417 : n < 417
      · rw [branch_vec (by omega) h417] at hr
        cases hr
        rw [vec_last_eq lookup heap h_i, Nat.mod_eq_of_lt (p_lt_two_pow_64 n h417)]
      · rw [branch_floor_vec (by omega) hyb] at hr
        cases hx : C.arb_get_unique_fmpz (floor_enclosure C n) with
        | none =>
          rw [hx] at hr
          exact hrr_exact C contains h_iv _ ud _ (h_ii ud) r hr
        | some high =>
          rw [hx] at hr
          cases hr
          have hh : (p n : Int) / 2 ^ 64 = high := (h_iv _ _ hx).2 _ h_iii
          rw [vec_last_eq lookup heap h_i, ← hh]
          push_cast
          exact Int.ediv_add_emod' _ _
    · rw [branch_hrr (by omega) hyb] at hr
      exact hrr_exact C contains h_iv _ ud _ (h_ii ud) r hr

theorem fmpz_fmpz_exact_aux (bits : Nat) (lookup : Nat → Nat) (C : Collaborators Arb Arf Dbl)
    (contains : Arb → Int → Prop) (heap : Nat → Nat) (n : Nat)
    (h_i : ∀ k, k < 128 → lookup k = p k)
    (h_ii : ∀ ud, contains (hrr_enclosure C (n : Int) ud) (p n : Int))
    (h_iii : contains (floor_enclosure C n) ((p n : Int) / 2 ^ 64))
    (h_iv : ExtractorContract C contains) (ud : Bool) (r : Int)
    (hr : partitions_fmpz_fmpz bits lookup C heap (n : Int) ud = some r) : r = (p n : Int) := by
  unfold partitions_fmpz_fmpz at hr
  by_cases h : (n : Int) < 2000
  · rw [if_pos h, if_neg (by omega), Int.toNat_ofNat] at hr
    exact ui_exact bits lookup C contains heap n h_i h_ii h_iii h_iv ud r hr
  · rw [if_neg h] at hr
    exact hrr_exact C contains h_iv _ ud _ (h_ii ud) r hr

theorem interval_contract (P : Nat → Nat) (slack : Int) :
    ExtractorContract (interval_collaborators P slack) ball_contains := by
  intro x m h
  simp only [interval_collaborators] at h
  split_ifs at h with he
  cases h
  refine ⟨⟨le_refl _, le_of_eq he⟩, fun k hk => ?_⟩
  exact le_antisymm (he ▸ hk.2) hk.1

theorem interval_hrr_contains (P : Nat → Nat) (slack : Int) (n : Int) (ud : Bool) :
    ball_contains (hrr_enclosure (interval_collaborators P slack) n ud) (P n.toNat : Int) := by
  simp [hrr_enclosure, interval_collaborators, ball_contains]

theorem interval_floor_contains (P : Nat → Nat) (n : Nat) :
    ball_contains (floor_enclosure (interval_collaborators P 0) n) ((P n : Int) / 2 ^ 64) := by
  simp [floor_enclosure, interval_collaborators, ball_contains]

theorem p_417 : p 417 = p_cert_value 417 := p_eq_cert 417 (by norm_num)

/-! ## The claims -/

/-- C1, amended: exactness and independence of the flag. For every `n ≥ 0`,
assuming (i) the table holds `p k` for `k < 128`, (ii) the widened full series
enclosure contains `p n`, (iii) the floored leading term enclosure contains
`floor (p n / 2 ^ 64)` and (iv) the extractor returns an integer only when it
lies in its enclosure and is the only integer there, every value returned by
`partitions_fmpz_fmpz n use_doubles` is `p n`, the number of partitions of `n`;
so the values returned with `use_doubles` false and true are equal. -/
theorem partitions_fmpz_fmpz_exact (bits : Nat) (lookup : Nat → Nat)
    (C : Collaborators Arb Arf Dbl) (contains : Arb → Int → Prop) (heap : Nat → Nat) (n : Nat)
    (h_i : ∀ k, k < 128 → lookup k = p k)
    (h_ii : ∀ ud, contains (hrr_enclosure C (n : Int) ud) (p n : Int))
    (h_iii : contains (floor_enclosure C n) ((p n : Int) / 2 ^ 64))
    (h_iv : ∀ x m, C.arb_get_unique_fmpz x = some m →
      contains x m ∧ ∀ k, contains x k → k = m) :
    (∀ ud r, partitions_fmpz_fmpz bits lookup C heap (n : Int) ud = some r → r = (p n : Int)) ∧
    (∀ r1 r2, partitions_fmpz_fmpz bits lookup C heap (n : Int) false = some r1 →
      partitions_fmpz_fmpz bits lookup C heap (n : Int) true = some r2 → r1 = r2) := by
  have key := fmpz_fmpz_exact_aux bits lookup C contains heap n h_i h_ii h_iii h_iv
  exact ⟨key, fun r1 r2 h1 h2 => (key false r1 h1).trans (key true r2 h2).symm⟩

/-- C1, amended, at `n = 417`, the first argument of the floor+vec branch, with
the reference collaborators. -/
theorem partitions_fmpz_fmpz_exact_witness :
    (∀ k, k < 128 → partitions_lookup k = p k) ∧
    (∀ ud, ball_contains
      (hrr_enclosure (interval_collaborators p_cert_value 0) ((417 : Nat) : Int) ud)
      (p 417 : Int)) ∧
    ball_contains (floor_enclosure (interval_collaborators p_cert_value 0) 417)
      ((p 417 : Int) / 2 ^ 64) ∧
    (∀ x m, (interval_collaborators p_cert_value 0).arb_get_unique_fmpz x = some m →
      ball_contains x m ∧ ∀ k, ball_contains x k → k = m) ∧
    ((∀ ud r, partitions_fmpz_fmpz 64 partitions_lookup (interval_collaborators p_cert_value 0)
        zero_heap ((417 : Nat) : Int) ud = some r → r = (p 417 : Int)) ∧
     (∀ r1 r2, partitions_fmpz_fmpz 64 partitions_lookup (interval_collaborators p_cert_value 0)
        zero_heap ((417 : Nat) : Int) false = some r1 →
      partitions_fmpz_fmpz 64 partitions_lookup (interval_collaborators p_cert_value 0)
        zero_heap ((417 : Nat) : Int) true = some r2 → r1 = r2)) := by
  have h2 : ∀ ud, ball_contains
      (hrr_enclosure (interval_collaborators p_cert_value 0) ((417 : Nat) : Int) ud)
      (p 417 : Int) := by
    intro ud
    rw [p_417]
    exact interval_hrr_contains p_cert_value 0 _ ud
  have h3 : ball_contains (floor_enclosure (interval_collaborators p_cert_value 0) 417)
      ((p 417 : Int) / 2 ^ 64) := by
    rw [p_417]
    exact interval_floor_contains p_cert_value 417
  exact ⟨partitions_lookup_eq_p, h2, h3, interval_contract p_cert_value 0,
    partitions_fmpz_fmpz_exact 64 partitions_lookup (interval_collaborators p_cert_value 0)
      ball_contains zero_heap 417 partitions_lookup_eq_p h2 h3
      (interval_contract p_cert_value 0)⟩

/-- C2: for every `n < 0` and either value of `use_doubles`,
`partitions_fmpz_fmpz` returns `0`; the result is the same for every table,
every block content and every family of collaborators, none of which is
consulted. -/
theorem partitions_fmpz_fmpz_negative (bits : Nat) (lookup : Nat → Nat)
    (C : Collaborators Arb Arf Dbl) (heap : Nat → Nat) (n : Int) (use_doubles : Bool)
    (hn : n < 0) : partitions_fmpz_fmpz bits lookup C heap n use_doubles = some 0 := by
  unfold partitions_fmpz_fmpz
  rw [if_pos (by omega), if_pos hn]

/-- C2 at `n = -5`. -/
theorem partitions_fmpz_fmpz_negative_witness :
    (-5 : Int) < 0 ∧
    partitions_fmpz_fmpz 64 partitions_lookup (interval_collaborators p_cert_value 0) zero_heap
      (-5) false = some 0 :=
  ⟨by decide, partitions_fmpz_fmpz_negative 64 partitions_lookup
    (interval_collaborators p_cert_value 0) zero_heap (-5) false (by decide)⟩

/-- C3: for every `0 ≤ n < 128`, either value of `use_doubles` and either word
width, `partitions_fmpz_fmpz n use_doubles` and `_partitions_fmpz_ui n use_doubles`
return the table entry `partitions_lookup[n]`; there is no failure. -/
theorem partitions_lookup_regime (bits : Nat) (lookup : Nat → Nat)
    (C : Collaborators Arb Arf Dbl) (heap : Nat → Nat) (n : Nat) (use_doubles : Bool)
    (hn : n < 128) :
    partitions_fmpz_fmpz bits lookup C heap (n : Int) use_doubles = some (lookup n : Int) ∧
    _partitions_fmpz_ui bits lookup C heap n use_doubles = some (lookup n : Int) := by
  have h : _partitions_fmpz_ui bits lookup C heap n use_doubles = some (lookup n : Int) := by
    unfold _partitions_fmpz_ui
    rw [branch_lookup hn]
  refine ⟨?_, h⟩
  unfold partitions_fmpz_fmpz
  rw [if_pos (by omega), if_neg (by omega), Int.toNat_ofNat]
  exact h

/-- C3 at `n = 100` on a 32 bit word. -/
theorem partitions_lookup_regime_witness :
    100 < 128 ∧
    (partitions_fmpz_fmpz 32 partitions_lookup (interval_collaborators p_cert_value 0) zero_heap
      ((100 : Nat) : Int) true = some (partitions_lookup 100 : Int) ∧
    _partitions_fmpz_ui 32 partitions_lookup (interval_collaborators p_cert_value 0) zero_heap
      100 true = some (partitions_lookup 100 : Int)) :=
  ⟨by decide, partitions_lookup_regime 32 partitions_lookup
    (interval_collaborators p_cert_value 0) zero_heap 100 true (by decide)⟩

/-- C4: regime selection in the fast path. For every `n` (in particular
`0 ≤ n < 2000`) the branch taken belongs to one regime: the lookup table iff
`n < 128`, the hybrid method iff `128 ≤ n`, the word has 64 bits and (`n < 500`
or `use_doubles` is false and `n < 1200`), and the full asymptotic path
otherwise. At the boundaries the larger value starts the new regime: 127 is
looked up and 128 is not, on a 64 bit word 499 is hybrid and 500 is asymptotic
when `use_doubles` is true, and 1199 is hybrid and 1200 asymptotic when it is
false. -/
theorem regime_selection (bits n : Nat) (use_doubles : Bool) :
    ((branch bits n use_doubles).regime = Regime.lookup ↔ n < 128) ∧
    ((branch bits n use_doubles).regime = Regime.hybrid ↔
      (128 ≤ n ∧ bits = 64 ∧ (n < 500 ∨ (use_doubles = false ∧ n < 1200)))) ∧
    ((branch bits n use_doubles).regime = Regime.asymptotic ↔
      (¬ n < 128 ∧ ¬ (128 ≤ n ∧ bits = 64 ∧ (n < 500 ∨ (use_doubles = false ∧ n < 1200))))) ∧
    ((branch bits 127 use_doubles).regime = Regime.lookup ∧
      (branch bits 128 use_doubles).regime ≠ Regime.lookup ∧
      (branch 64 128 use_doubles).regime = Regime.hybrid) ∧
    ((branch 64 499 true).regime = Regime.hybrid ∧
      (branch 64 500 true).regime = Regime.asymptotic) ∧
    ((branch 64 1199 false).regime = Regime.hybrid ∧
      (branch 64 1200 use_doubles).regime = Regime.asymptotic) := by
  have main : ∀ m : Nat, ∀ ud : Bool,
      ((branch bits m ud).regime = Regime.lookup ↔ m < 128) ∧
      ((branch bits m ud).regime = Regime.hybrid ↔
        (128 ≤ m ∧ bits = 64 ∧ (m < 500 ∨ (ud = false ∧ m < 1200)))) ∧
      ((branch bits m ud).regime = Regime.asymptotic ↔
        (¬ m < 128 ∧ ¬ (128 ≤ m ∧ bits = 64 ∧ (m < 500 ∨ (ud = false ∧ m < 1200))))) := by
    intro m ud
    unfold branch NUMBER_OF_SMALL_PARTITIONS
    by_cases h1 : m < 128
    · rw [if_pos h1]
      simp only [Branch.regime]
      exact ⟨by simp [h1], by simp; omega, by simp [h1]⟩
    · rw [if_neg h1]
      by_cases h2 : bits = 64 ∧ (m < 500 ∨ (ud = false ∧ m < 1200))
      · rw [if_pos h2]
        have h3 : 128 ≤ m ∧ bits = 64 ∧ (m < 500 ∨ (ud = false ∧ m < 1200)) :=
          ⟨by omega, h2⟩
        by_cases h4 : m < 417
        · rw [if_pos h4]
          simp only [Branch.regime]
          exact ⟨by simp [h1], by simp [h3], by simp [h3]⟩
        · rw [if_neg h4]
          simp only [Branch.regime]
          exact ⟨by simp [h1], by simp [h3], by simp [h3]⟩
      · rw [if_neg h2]
        have h3 : ¬ (128 ≤ m ∧ bits = 64 ∧ (m < 500 ∨ (ud = false ∧ m < 1200))) :=
          fun h => h2 h.2
        simp only [Branch.regime]
        exact ⟨by simp [h1], by simp [h3], by simp [h1, h3]⟩
  refine ⟨(main n use_doubles).1, (main n use_doubles).2.1, (main n use_doubles).2.2, ?_, ?_, ?_⟩
  · refine ⟨(main 127 use_doubles).1.mpr (by norm_num), ?_, ?_⟩
    · intro h
      have := (main 128 use_doubles).1.mp h
      omega
    · cases use_doubles <;> decide
  · exact ⟨by decide, by decide⟩
  · refine ⟨by decide, ?_⟩
    cases use_doubles <;> decide

/-- C5: delegation to the full asymptotic path. For every `n ≥ 2000`, and for
every `128 ≤ n < 2000` such that the word width is not 64 bits, or
`500 ≤ n < 1200` with `use_doubles` true, or `1200 ≤ n`, the outcome of
`partitions_fmpz_fmpz n use_doubles` (a value or the abort) is the outcome of
`partitions_fmpz_fmpz_hrr` on the same `n` and `use_doubles`. -/
theorem partitions_fmpz_fmpz_delegates (bits : Nat) (lookup : Nat → Nat)
    (C : Collaborators Arb Arf Dbl) (heap : Nat → Nat) (n : Int) (use_doubles : Bool)
    (h : 2000 ≤ n ∨ (128 ≤ n ∧ n < 2000 ∧
      (bits ≠ 64 ∨ (500 ≤ n ∧ n < 1200 ∧ use_doubles = true) ∨ 1200 ≤ n))) :
    partitions_fmpz_fmpz bits lookup C heap n use_doubles
      = partitions_fmpz_fmpz_hrr C n use_doubles := by
  unfold partitions_fmpz_fmpz
  rcases h with h | ⟨h1, h2, h3⟩
  · rw [if_neg (by omega)]
  · rw [if_pos h2, if_neg (by omega)]
    unfold _partitions_fmpz_ui
    have hb : branch bits n.toNat use_doubles = Branch.hrr := by
      refine branch_hrr (by omega) ?_
      rintro ⟨hb, hc⟩
      rcases h3 with h3 | ⟨h3, _, h5⟩ | h3
      · exact h3 hb
      · rcases hc with hc | ⟨hc, _⟩
        · omega
        · rw [h5] at hc; cases hc
      · omega
    rw [hb]
    simp only
    rw [Int.toNat_of_nonneg (by omega)]

/-- C5 at `n = 600` with `use_doubles` true on a 64 bit word. -/
theorem partitions_fmpz_fmpz_delegates_witness :
    ((2000 : Int) ≤ 600 ∨ ((128 : Int) ≤ 600 ∧ (600 : Int) < 2000 ∧
      (64 ≠ 64 ∨ ((500 : Int) ≤ 600 ∧ (600 : Int) < 1200 ∧ true = true) ∨ (1200 : Int) ≤ 600))) ∧
    partitions_fmpz_fmpz 64 partitions_lookup (interval_collaborators p_cert_value 0) zero_heap
        600 true
      = partitions_fmpz_fmpz_hrr (interval_collaborators p_cert_value 0) 600 true :=
  ⟨by decide, partitions_fmpz_fmpz_delegates 64 partitions_lookup
    (interval_collaborators p_cert_value 0) zero_heap 600 true (by decide)⟩

/-- C6: recurrence correctness. Assuming the table holds `p k` for `k < 128`,
for every `len`, every vector of at least `len` limbs and every `k < len`, the
entry `v[k]` after `partitions_vec(v, len)` on 64 bit limbs is `p k mod 2 ^ 64`,
where `p` is the partition function. -/
theorem partitions_vec_correct (lookup : Nat → Nat) (v : List Nat) (len k : Nat)
    (hlookup : ∀ j, j < 128 → lookup j = p j) (hlen : len ≤ v.length) (hk : k < len) :
    (partitions_vec (2 ^ 64) lookup v len).getD k 0 = p k % 2 ^ 64 :=
  partitions_vec_spec (2 ^ 64) (Nat.two_pow_pos 64) lookup hlookup
    (fun j hj => lt_trans (p_lt_two_pow_32 j hj) (by norm_num)) v len hlen k hk

/-- C6 for the entry `k = 1999` of a vector of `2000` limbs. -/
theorem partitions_vec_correct_witness :
    (∀ j, j < 128 → partitions_lookup j = p j) ∧
    2000 ≤ (flint_malloc zero_heap 2000).length ∧ 1999 < 2000 ∧
    (partitions_vec (2 ^ 64) partitions_lookup (flint_malloc zero_heap 2000) 2000).getD 1999 0
      = p 1999 % 2 ^ 64 :=
  ⟨partitions_lookup_eq_p, le_of_eq (flint_malloc_length zero_heap 2000).symm, by decide,
    partitions_vec_correct partitions_lookup (flint_malloc zero_heap 2000) 2000 1999
      partitions_lookup_eq_p (le_of_eq (flint_malloc_length zero_heap 2000).symm) (by decide)⟩

theorem p_200 : p 200 = 3972999029388 := by
  rw [p_eq_cert 200 (by norm_num)]
  decide

/-- C7: for every `128 ≤ n < 417` on a 64 bit word and either value of
`use_doubles`, `_partitions_fmpz_ui n use_doubles` returns the last entry `v[n]`
of `partitions_vec(v, n + 1)`, whatever the collaborators are; assuming the
table holds `p k` for `k < 128` this value is `p n`, because `p n < 2 ^ 64`; for
`n = 200` and the table of the partition numbers the result is
`3972999029388`. -/
theorem ui_vec_branch (lookup : Nat → Nat) (C : Collaborators Arb Arf Dbl) (heap : Nat → Nat)
    (n : Nat) (use_doubles : Bool) (h1 : 128 ≤ n) (h2 : n < 417) :
    _partitions_fmpz_ui 64 lookup C heap n use_doubles
      = some (((partitions_vec (2 ^ 64) lookup (flint_malloc heap (n + 1)) (n + 1)).getD n 0
          : Nat) : Int) ∧
    ((∀ k, k < 128 → lookup k = p k) →
      p n < 2 ^ 64 ∧ _partitions_fmpz_ui 64 lookup C heap n use_doubles = some (p n : Int)) ∧
    _partitions_fmpz_ui 64 partitions_lookup C heap 200 use_doubles = some 3972999029388 := by
  have hb : ∀ (lk : Nat → Nat) (m : Nat), 128 ≤ m → m < 417 →
      _partitions_fmpz_ui 64 lk C heap m use_doubles = some (vec_last 64 lk heap m : Int) := by
    intro lk m hm1 hm2
    unfold _partitions_fmpz_ui
    rw [branch_vec hm1 hm2]
  refine ⟨hb lookup n h1 h2, fun hl => ⟨p_lt_two_pow_64 n h2, ?_⟩, ?_⟩
  · rw [hb lookup n h1 h2, vec_last_eq lookup heap hl, Nat.mod_eq_of_lt (p_lt_two_pow_64 n h2)]
  · rw [hb partitions_lookup 200 (by norm_num) (by norm_num),
      vec_last_eq partitions_lookup heap partitions_lookup_eq_p,
      Nat.mod_eq_of_lt (p_lt_two_pow_64 200 (by norm_num)), p_200]
    rfl

/-- C7 at `n = 416`, the last argument handled by the recurrence alone. -/
theorem ui_vec_branch_witness :
    128 ≤ 416 ∧ 416 < 417 ∧
    (_partitions_fmpz_ui 64 partitions_lookup (interval_collaborators p_cert_value 0) zero_heap
        416 true
      = some (((partitions_vec (2 ^ 64) partitions_lookup (flint_malloc zero_heap (416 + 1))
          (416 + 1)).getD 416 0 : Nat) : Int) ∧
    ((∀ k, k < 128 → partitions_lookup k = p k) →
      p 416 < 2 ^ 64 ∧
      _partitions_fmpz_ui 64 partitions_lookup (interval_collaborators p_cert_value 0) zero_heap
        416 true = some (p 416 : Int)) ∧
    _partitions_fmpz_ui 64 partitions_lookup (interval_collaborators p_cert_value 0) zero_heap
      200 true = some 3972999029388) :=
  ⟨by decide, by decide, ui_vec_branch partitions_lookup (interval_collaborators p_cert_value 0)
    zero_heap 416 true (by decide) (by decide)⟩

/-- C8: hybrid reconstruction. For every `n ≥ 417` routed to the hybrid method
(64 bit word, `n < 500` or `use_doubles` false and `n < 1200`), if the extractor
succeeds on the floored enclosure with the integer `high`, the result is
`high * 2 ^ 64 + low`, where `low` is the entry `v[n]` of `partitions_vec(v, n + 1)`,
an unsigned 64 bit value; hence if `high = floor (p n / 2 ^ 64)` and
`low = p n mod 2 ^ 64` the result is `p n`. -/
theorem ui_hybrid_reconstruction (lookup : Nat → Nat) (C : Collaborators Arb Arf Dbl)
    (heap : Nat → Nat) (n : Nat) (use_doubles : Bool) (high : Int)
    (h417 : 417 ≤ n) (hroute : n < 500 ∨ (use_doubles = false ∧ n < 1200))
    (hx : C.arb_get_unique_fmpz (floor_enclosure C n) = some high) :
    _partitions_fmpz_ui 64 lookup C heap n use_doubles
      = some (high * 2 ^ 64 +
          (((partitions_vec (2 ^ 64) lookup (flint_malloc heap (n + 1)) (n + 1)).getD n 0
            : Nat) : Int)) ∧
    (partitions_vec (2 ^ 64) lookup (flint_malloc heap (n + 1)) (n + 1)).getD n 0 < 2 ^ 64 ∧
    (high = (p n : Int) / 2 ^ 64 →
      (partitions_vec (2 ^ 64) lookup (flint_malloc heap (n + 1)) (n + 1)).getD n 0
        = p n % 2 ^ 64 →
      _partitions_fmpz_ui 64 lookup C heap n use_doubles = some (p n : Int)) := by
  have hb : _partitions_fmpz_ui 64 lookup C heap n use_doubles
      = some (high * 2 ^ 64 + (vec_last 64 lookup heap n : Int)) := by
    unfold _partitions_fmpz_ui
    rw [branch_floor_vec h417 hroute]
    simp only [hx]
  refine ⟨hb, vec_last_lt 64 lookup heap n (by omega), fun hh hl => ?_⟩
  rw [hb]
  unfold vec_last
  rw [hl, hh]
  push_cast
  rw [Int.ediv_add_emod']

/-- C8 at `n = 417`, where `p 417 = 2 ^ 64 + 541220193622112941`. -/
theorem ui_hybrid_reconstruction_witness :
    417 ≤ 417 ∧ (417 < 500 ∨ (true = false ∧ 417 < 1200)) ∧
    (interval_collaborators p_cert_value 0).arb_get_unique_fmpz
      (floor_enclosure (interval_collaborators p_cert_value 0) 417) = some 1 ∧
    (_partitions_fmpz_ui 64 partitions_lookup (interval_collaborators p_cert_value 0) zero_heap
        417 true
      = some (1 * 2 ^ 64 +
          (((partitions_vec (2 ^ 64) partitions_lookup (flint_malloc zero_heap (417 + 1))
            (417 + 1)).getD 417 0 : Nat) : Int)) ∧
    (partitions_vec (2 ^ 64) partitions_lookup (flint_malloc zero_heap (417 + 1))
      (417 + 1)).getD 417 0 < 2 ^ 64 ∧
    ((1 : Int) = (p 417 : Int) / 2 ^ 64 →
      (partitions_vec (2 ^ 64) partitions_lookup (flint_malloc zero_heap (417 + 1))
        (417 + 1)).getD 417 0 = p 417 % 2 ^ 64 →
      _partitions_fmpz_ui 64 partitions_lookup (interval_collaborators p_cert_value 0) zero_heap
        417 true = some (p 417 : Int))) :=
  ⟨by decide, by decide, by decide,
    ui_hybrid_reconstruction partitions_lookup (interval_collaborators p_cert_value 0) zero_heap
      417 true 1 (by decide) (by decide) (by decide)⟩

/-- C9: hybrid fallback. For every `n ≥ 417` routed to the hybrid method, if the
extractor fails on the floored leading term enclosure, the outcome of
`_partitions_fmpz_ui n use_doubles` is the outcome of the full asymptotic path
`partitions_fmpz_fmpz_hrr` on the same `n` and `use_doubles`: the failure is not
passed on and no hybrid value is returned. -/
theorem ui_hybrid_fallback (lookup : Nat → Nat) (C : Collaborators Arb Arf Dbl)
    (heap : Nat → Nat) (n : Nat) (use_doubles : Bool)
    (h417 : 417 ≤ n) (hroute : n < 500 ∨ (use_doubles = false ∧ n < 1200))
    (hx : C.arb_get_unique_fmpz (floor_enclosure C n) = none) :
    _partitions_fmpz_ui 64 lookup C heap n use_doubles
      = partitions_fmpz_fmpz_hrr C (n : Int) use_doubles := by
  unfold _partitions_fmpz_ui
  rw [branch_floor_vec h417 hroute]
  simp only [hx]

/-- C9 at `n = 417` with a leading term enclosure of radius `2 ^ 64`: the
fallback returns `p 417`. -/
theorem ui_hybrid_fallback_witness :
    417 ≤ 417 ∧ (417 < 500 ∨ (false = false ∧ 417 < 1200)) ∧
    (interval_collaborators p_cert_value (2 ^ 64)).arb_get_unique_fmpz
      (floor_enclosure (interval_collaborators p_cert_value (2 ^ 64)) 417) = none ∧
    _partitions_fmpz_ui 64 partitions_lookup (interval_collaborators p_cert_value (2 ^ 64))
        zero_heap 417 false
      = partitions_fmpz_fmpz_hrr (interval_collaborators p_cert_value (2 ^ 64))
          ((417 : Nat) : Int) false :=
  ⟨by decide, by decide, by decide,
    ui_hybrid_fallback partitions_lookup (interval_collaborators p_cert_value (2 ^ 64)) zero_heap
      417 false (by decide) (by decide) (by decide)⟩

/-- C10: certification in the full asymptotic path. For every `n` and
`use_doubles`, `partitions_fmpz_fmpz_hrr` applies the extractor to the sum of the
terms `1..N` of the series, `N = partitions_hrr_needed_terms n`, computed with the
given `use_doubles` and widened by the Rademacher bound for `(n, N)`; it returns
the extracted integer when the extraction succeeds and aborts iff it fails. -/
theorem hrr_certified (C : Collaborators Arb Arf Dbl) (n : Int) (use_doubles : Bool) :
    partitions_fmpz_fmpz_hrr C n use_doubles
      = C.arb_get_unique_fmpz
          (C.arb_add_error_arf
            (C.partitions_hrr_sum_arb n 1 (C.partitions_hrr_needed_terms (C.fmpz_get_d n))
              use_doubles)
            (C.partitions_rademacher_bound n (C.partitions_hrr_needed_terms (C.fmpz_get_d n)))) ∧
    (partitions_fmpz_fmpz_hrr C n use_doubles = none ↔
      C.arb_get_unique_fmpz (hrr_enclosure C n use_doubles) = none) ∧
    (∀ r, partitions_fmpz_fmpz_hrr C n use_doubles = some r ↔
      C.arb_get_unique_fmpz (hrr_enclosure C n use_doubles) = some r) := by
  have h : partitions_fmpz_fmpz_hrr C n use_doubles
      = C.arb_get_unique_fmpz (hrr_enclosure C n use_doubles) := by
    unfold partitions_fmpz_fmpz_hrr
    cases C.arb_get_unique_fmpz (hrr_enclosure C n use_doubles) <;> rfl
  exact ⟨h, by rw [h], fun r => by rw [h]⟩

/-! ## The recurrence step and its stability -/

/-- The inner loop reads only entries below `n`. -/
theorem pent_loop_congr (W : Nat) (v w : List Nat) (n c : Nat)
    (h : ∀ k, k < n → v.getD k 0 = w.getD k 0) :
    ∀ fuel i j p, 1 ≤ j → pent_loop W v n c fuel i j p = pent_loop W w n c fuel i j p := by
  intro fuel
  induction fuel with
  | zero => intro i j p _; rfl
  | succ fuel ih =>
    intro i j p hj
    rw [pent_loop, pent_loop]
    split_ifs with hjn
    · rw [h (n - j) (by omega)]
      exact ih _ _ _ (by omega)
    · rfl

theorem vec_entry_congr (W : Nat) (v w : List Nat) (n : Nat)
    (h : ∀ k, k < n → v.getD k 0 = w.getD k 0) : vec_entry W v n = vec_entry W w n := by
  unfold vec_entry
  dsimp only
  rw [pent_loop_congr W v w n 1 h _ _ _ _ le_rfl]
  rw [pent_loop_congr W v w n 2 h _ _ _ _ (by norm_num)]

theorem vec_fill_add (W : Nat) : ∀ (a b start : Nat) (v : List Nat),
    vec_fill W v start (a + b) = vec_fill W (vec_fill W v start a) (start + a) b := by
  intro a
  induction a with
  | zero => intro b start v; rw [Nat.zero_add]; rfl
  | succ a ih =>
    intro b start v
    rw [Nat.add_right_comm, vec_fill_succ, vec_fill_succ, ih, Nat.add_assoc, Nat.add_comm 1 a]

/-- After `partitions_vec`, an entry from index 128 on is the value the loop
body computes from the final vector. -/
theorem partitions_vec_step (W : Nat) (lookup : Nat → Nat) (v : List Nat) (len n : Nat)
    (h128 : 128 ≤ n) (hn : n < len) (hlen : len ≤ v.length) :
    (partitions_vec W lookup v len).getD n 0
      = vec_entry W (partitions_vec W lookup v len) n := by
  have hsplit : partitions_vec W lookup v len
      = vec_fill W (vec_fill W (vec_seed lookup v len) 128 (n - 128)) n (len - n - 1 + 1) := by
    unfold partitions_vec NUMBER_OF_SMALL_PARTITIONS
    rw [show len - 128 = (n - 128) + (len - n - 1 + 1) by omega, vec_fill_add,
      show 128 + (n - 128) = n by omega]
  have hmid : n < (vec_fill W (vec_seed lookup v len) 128 (n - 128)).length := by
    rw [vec_fill_length, vec_seed_length]; omega
  rw [hsplit, vec_fill_at W _ n _ hmid]
  refine vec_entry_congr W _ _ n fun k hk => ?_
  rw [vec_fill_below W _ n _ k hk]

theorem euler_sum_eq (v : List Nat) (n : Nat) :
    euler_sum v n = ∑ k in range n, (-1) ^ k *
      ((if pent_minus (k + 1) ≤ n then (v.getD (n - pent_minus (k + 1)) 0 : Int) else 0)
        + (if pent_plus (k + 1) ≤ n then (v.getD (n - pent_plus (k + 1)) 0 : Int) else 0)) := by
  have hshift : ∀ F : Nat → Int, ∑ k in Finset.Icc 1 n, F k = ∑ k in range n, F (k + 1) := by
    intro F
    rw [Finset.range_eq_Ico, Finset.sum_Ico_add' F 0 n 1, ← Nat.Ico_succ_right]
  unfold euler_sum
  rw [Finset.sum_filter, Finset.sum_filter, hshift, hshift, ← Finset.sum_add_distrib]
  refine Finset.sum_congr rfl fun k _ => ?_
  have e : (-1 : Int) ^ (k + 1 + 1) = (-1) ^ k := by rw [pow_succ, pow_succ]; ring
  rw [e]
  show (if pent_minus (k + 1) ≤ n
        then (-1) ^ k * (v.getD (n - pent_minus (k + 1)) 0 : Int) else 0)
      + (if pent_plus (k + 1) ≤ n
        then (-1) ^ k * (v.getD (n - pent_plus (k + 1)) 0 : Int) else 0) = _
  split_ifs <;> ring

/-- The limb stored by the loop body is Euler's sum over the vector, reduced
modulo the limb modulus. -/
theorem vec_entry_euler (W : Nat) (hW : 0 < W) (v : List Nat) (n : Nat) :
    ((vec_entry W v n : Nat) : Int) = euler_sum v n % (W : Int) := by
  have hz : (((vec_entry W v n : Nat) : Int) : ZMod W) = ((euler_sum v n : Int) : ZMod W) := by
    rw [euler_sum_eq, Int.cast_natCast, vec_entry_cast W hW]
    push_cast
    rfl
  have hmod := (ZMod.intCast_eq_intCast_iff _ _ _).mp hz
  have hlt : ((vec_entry W v n : Nat) : Int) < (W : Int) := by
    exact_mod_cast vec_entry_lt W hW v n
  rw [← hmod, Int.emod_eq_of_lt (Int.natCast_nonneg _) hlt]

/-- C11: the recurrence step. For every `len`, every vector of at least `len`
limbs and every `n` with `128 ≤ n < len`, the entry `v[n]` left by
`partitions_vec` on 64 bit limbs is what its two loops compute from the vector,
and that is Euler's pentagonal sum over the earlier entries reduced modulo
`2 ^ 64`; the loop body computes this sum for every vector and every `n`, hence
for every parity of the number of terms of either kind. -/
theorem recurrence_step (lookup : Nat → Nat) (v : List Nat) (len n : Nat)
    (h128 : 128 ≤ n) (hn : n < len) (hlen : len ≤ v.length) :
    (partitions_vec (2 ^ 64) lookup v len).getD n 0
      = vec_entry (2 ^ 64) (partitions_vec (2 ^ 64) lookup v len) n ∧
    (((partitions_vec (2 ^ 64) lookup v len).getD n 0 : Nat) : Int)
      = euler_sum (partitions_vec (2 ^ 64) lookup v len) n % 2 ^ 64 ∧
    (∀ (w : List Nat) (m : Nat), ((vec_entry (2 ^ 64) w m : Nat) : Int)
      = euler_sum w m % 2 ^ 64) := by
  have hstep := partitions_vec_step (2 ^ 64) lookup v len n h128 hn hlen
  have heuler : ∀ (w : List Nat) (m : Nat), ((vec_entry (2 ^ 64) w m : Nat) : Int)
      = euler_sum w m % 2 ^ 64 := by
    intro w m
    have := vec_entry_euler (2 ^ 64) (Nat.two_pow_pos 64) w m
    exact_mod_cast this
  refine ⟨hstep, ?_, heuler⟩
  rw [hstep]
  exact heuler _ n

/-- C11 for the entry `n = 200` of a vector of `201` limbs. -/
theorem recurrence_step_witness :
    128 ≤ 200 ∧ 200 < 201 ∧ 201 ≤ (flint_malloc zero_heap 201).length ∧
    ((partitions_vec (2 ^ 64) partitions_lookup (flint_malloc zero_heap 201) 201).getD 200 0
      = vec_entry (2 ^ 64)
          (partitions_vec (2 ^ 64) partitions_lookup (flint_malloc zero_heap 201) 201) 200 ∧
    (((partitions_vec (2 ^ 64) partitions_lookup (flint_malloc zero_heap 201) 201).getD 200 0
        : Nat) : Int)
      = euler_sum (partitions_vec (2 ^ 64) partitions_lookup (flint_malloc zero_heap 201) 201)
          200 % 2 ^ 64 ∧
    (∀ (w : List Nat) (m : Nat), ((vec_entry (2 ^ 64) w m : Nat) : Int)
      = euler_sum w m % 2 ^ 64)) :=
  ⟨by decide, by decide, le_of_eq (flint_malloc_length zero_heap 201).symm,
    recurrence_step partitions_lookup (flint_malloc zero_heap 201) 201 200 (by decide)
      (by decide) (le_of_eq (flint_malloc_length zero_heap 201).symm)⟩

theorem partitions_vec_seed_entry (W : Nat) (lookup : Nat → Nat) (v : List Nat) (len k : Nat)
    (hk : k < min len 128) (hlen : len ≤ v.length) :
    (partitions_vec W lookup v len).getD k 0 = lookup k := by
  have hk128 : k < 128 := lt_of_lt_of_le hk (min_le_right _ _)
  have hklen : k < len := lt_of_lt_of_le hk (min_le_left _ _)
  unfold partitions_vec
  rw [vec_fill_below W _ NUMBER_OF_SMALL_PARTITIONS _ k hk128, vec_seed_getD,
    if_pos ⟨hk, by omega⟩]

/-- The entries of the vector do not depend on the block or on the length. -/
theorem partitions_vec_entry_indep (W : Nat) (lookup : Nat → Nat) :
    ∀ (k : Nat) (v1 v2 : List Nat) (len1 len2 : Nat), k < len1 → k < len2 →
      len1 ≤ v1.length → len2 ≤ v2.length →
      (partitions_vec W lookup v1 len1).getD k 0 = (partitions_vec W lookup v2 len2).getD k 0 := by
  intro k
  induction k using Nat.strong_induction_on with
  | _ k ih =>
    intro v1 v2 len1 len2 hk1 hk2 h1 h2
    by_cases h128 : k < 128
    · rw [partitions_vec_seed_entry W lookup v1 len1 k (lt_min hk1 h128) h1,
        partitions_vec_seed_entry W lookup v2 len2 k (lt_min hk2 h128) h2]
    · rw [partitions_vec_step W lookup v1 len1 k (by omega) hk1 h1,
        partitions_vec_step W lookup v2 len2 k (by omega) hk2 h2]
      exact vec_entry_congr W _ _ k fun j hj =>
        ih j hj v1 v2 len1 len2 (by omega) (by omega) h1 h2

/-- C16: prefix stability of the recurrence. The entries computed by
`partitions_vec` depend only on the table and the index: for all
`len1 ≤ len2`, all vectors `v1`, `v2` of at least `len1` and `len2` limbs with
any content, and every `k < len1`, the entry `k` after `partitions_vec(v1, len1)`
is the entry `k` after `partitions_vec(v2, len2)`; the entries below
`min len1 128` are those of `partitions_lookup`. -/
theorem partitions_vec_prefix_stable (W : Nat) (lookup : Nat → Nat) (v1 v2 : List Nat)
    (len1 len2 k : Nat) (h12 : len1 ≤ len2) (h1 : len1 ≤ v1.length) (h2 : len2 ≤ v2.length)
    (hk : k < len1) :
    (partitions_vec W lookup v1 len1).getD k 0 = (partitions_vec W lookup v2 len2).getD k 0 ∧
    (∀ j, j < min len1 128 → (partitions_vec W lookup v1 len1).getD j 0 = lookup j) :=
  ⟨partitions_vec_entry_indep W lookup k v1 v2 len1 len2 hk (lt_of_lt_of_le hk h12) h1 h2,
    fun j hj => partitions_vec_seed_entry W lookup v1 len1 j hj h1⟩

/-- C16 for the lengths 150 and 300, two blocks of different content and the
entry `k = 140`. -/
theorem partitions_vec_prefix_stable_witness :
    150 ≤ 300 ∧ 150 ≤ (flint_malloc zero_heap 150).length ∧
    300 ≤ (flint_malloc (fun i => i + 7) 300).length ∧ 140 < 150 ∧
    ((partitions_vec (2 ^ 64) partitions_lookup (flint_malloc zero_heap 150) 150).getD 140 0
      = (partitions_vec (2 ^ 64) partitions_lookup (flint_malloc (fun i => i + 7) 300)
          300).getD 140 0 ∧
    (∀ j, j < min 150 128 →
      (partitions_vec (2 ^ 64) partitions_lookup (flint_malloc zero_heap 150) 150).getD j 0
        = partitions_lookup j)) :=
  ⟨by decide, le_of_eq (flint_malloc_length _ _).symm, le_of_eq (flint_malloc_length _ _).symm,
    by decide,
    partitions_vec_prefix_stable (2 ^ 64) partitions_lookup (flint_malloc zero_heap 150)
      (flint_malloc (fun i => i + 7) 300) 150 300 140 (by decide)
      (le_of_eq (flint_malloc_length _ _).symm) (le_of_eq (flint_malloc_length _ _).symm)
      (by decide)⟩

/-! ## The guard precision -/

theorem four_mul_sqrt (n : Nat) : 4 * Real.sqrt (n : ℝ) = Real.sqrt ((16 * n : Nat) : ℝ) := by
  have h16 : Real.sqrt 16 = 4 := by
    rw [show (16 : ℝ) = 4 ^ 2 by norm_num, Real.sqrt_sq (by norm_num)]
  push_cast
  rw [Real.sqrt_mul (by norm_num) (n : ℝ), h16]

/-- Where `4 * sqrt n - 50` is not negative, `guard_prec n` is its floor. -/
theorem guard_prec_eq_floor (n : Nat) (h : 2500 ≤ 16 * n) :
    guard_prec n = ⌊4 * Real.sqrt (n : ℝ) - 50⌋ := by
  unfold guard_prec
  rw [if_pos h, four_mul_sqrt, show (50 : ℝ) = ((50 : Int) : ℝ) by norm_num, Int.floor_sub_int,
    Real.floor_real_sqrt_eq_nat_sqrt]

/-- Where `4 * sqrt n - 50` is negative, `guard_prec n` is its ceiling. -/
theorem guard_prec_eq_ceil (n : Nat) (h : 16 * n < 2500) :
    guard_prec n = ⌈4 * Real.sqrt (n : ℝ) - 50⌉ ∧ 4 * Real.sqrt (n : ℝ) - 50 < 0 := by
  have hs1 : Nat.sqrt (16 * n) * Nat.sqrt (16 * n) ≤ 16 * n := Nat.sqrt_le (16 * n)
  have hs2 : 16 * n < (Nat.sqrt (16 * n) + 1) * (Nat.sqrt (16 * n) + 1) :=
    Nat.lt_succ_sqrt (16 * n)
  have hr1 : ((Nat.sqrt (16 * n) : Nat) : ℝ) ≤ Real.sqrt ((16 * n : Nat) : ℝ) := by
    apply Real.le_sqrt_of_sq_le
    rw [sq]
    exact_mod_cast hs1
  have hr2 : Real.sqrt ((16 * n : Nat) : ℝ) ≤ ((Nat.sqrt (16 * n) : Nat) : ℝ) + 1 := by
    apply Real.sqrt_le_iff.mpr
    refine ⟨by positivity, ?_⟩
    rw [sq]
    exact_mod_cast hs2.le
  have hneg : Real.sqrt ((16 * n : Nat) : ℝ) < 50 := by
    rw [Real.sqrt_lt' (by norm_num)]
    have : ((16 * n : Nat) : ℝ) < 2500 := by exact_mod_cast h
    linarith
  refine ⟨?_, by rw [four_mul_sqrt]; linarith⟩
  unfold guard_prec
  rw [if_neg (by omega), four_mul_sqrt, show (50 : ℝ) = ((50 : Int) : ℝ) by norm_num,
    Int.ceil_sub_int]
  split_ifs with hsq
  · have : Real.sqrt ((16 * n : Nat) : ℝ) = ((Nat.sqrt (16 * n) : Int) : ℝ) := by
      have e : ((16 * n : Nat) : ℝ)
          = ((Nat.sqrt (16 * n) : Nat) : ℝ) * ((Nat.sqrt (16 * n) : Nat) : ℝ) := by
        exact_mod_cast hsq.symm
      rw [e, Real.sqrt_mul_self (Nat.cast_nonneg _)]
      norm_cast
    rw [this, Int.ceil_intCast]
  · have hlt : ((Nat.sqrt (16 * n) : Nat) : ℝ) < Real.sqrt ((16 * n : Nat) : ℝ) := by
      apply Real.lt_sqrt_of_sq_lt
      rw [sq]
      have : Nat.sqrt (16 * n) * Nat.sqrt (16 * n) < 16 * n := lt_of_le_of_ne hs1 hsq
      exact_mod_cast this
    have : ⌈Real.sqrt ((16 * n : Nat) : ℝ)⌉ = (Nat.sqrt (16 * n) : Int) + 1 := by
      rw [Int.ceil_eq_iff]
      push_cast
      constructor
      · simpa using hlt
      · simpa using hr2
    rw [this]

theorem guard_prec_bounds (n : Nat) (h1 : 417 ≤ n) (h2 : n < 1200) :
    31 ≤ guard_prec n ∧ guard_prec n ≤ 88 := by
  unfold guard_prec
  rw [if_pos (by omega)]
  have hlo : 81 ≤ Nat.sqrt (16 * n) := Nat.le_sqrt.mpr (by omega)
  have hhi : Nat.sqrt (16 * n) < 139 := Nat.sqrt_lt.mpr (by omega)
  omega

/-- The real number `4 * sqrt n - 50` stays away from the ends of the range: an
error below `1/4` in its evaluation does not move its integer part out of
`31 .. 88`. -/
theorem guard_real_bounds (n : Nat) (h1 : 417 ≤ n) (h2 : n < 1200) :
    (31 : ℝ) + 1 / 2 < 4 * Real.sqrt (n : ℝ) - 50 ∧
    4 * Real.sqrt (n : ℝ) - 50 < (88 : ℝ) + 3 / 4 := by
  have hn1 : (417 : ℝ) ≤ (n : ℝ) := by exact_mod_cast h1
  have hn2 : (n : ℝ) ≤ 1199 := by exact_mod_cast Nat.lt_succ_iff.mp h2
  rw [four_mul_sqrt]
  push_cast
  constructor
  · have : (81 + 1 / 2 : ℝ) < Real.sqrt (16 * (n : ℝ)) := by
      rw [Real.lt_sqrt (by norm_num)]
      nlinarith
    linarith
  · have : Real.sqrt (16 * (n : ℝ)) < (138 + 3 / 4 : ℝ) := by
      rw [Real.sqrt_lt' (by norm_num)]
      nlinarith
    linarith

theorem branch_floor_vec_iff (bits n : Nat) (ud : Bool) :
    branch bits n ud = Branch.floor_vec ↔
      bits = 64 ∧ 417 ≤ n ∧ (n < 500 ∨ (ud = false ∧ n < 1200)) := by
  unfold branch NUMBER_OF_SMALL_PARTITIONS
  constructor
  · intro h
    split_ifs at h with h1 h2 h3
    exact ⟨h2.1, by omega, h2.2⟩
  · rintro ⟨hb, h417, hr⟩
    rw [if_neg (by omega), if_pos ⟨hb, hr⟩, if_neg (by omega)]

/-- Outside the floor+vec branch the leading term routine has no part in the
outcome. -/
theorem ui_leading_unused (bits : Nat) (lookup : Nat → Nat) (C : Collaborators Arb Arf Dbl)
    (heap : Nat → Nat) (n : Nat) (ud : Bool) (leading : Int → Int → Arb)
    (h : branch bits n ud ≠ Branch.floor_vec) :
    _partitions_fmpz_ui bits lookup (with_leading C leading) heap n ud
      = _partitions_fmpz_ui bits lookup C heap n ud := by
  unfold _partitions_fmpz_ui
  cases hb : branch bits n ud with
  | lookup => rfl
  | vec => rfl
  | floor_vec => exact absurd hb h
  | hrr => rfl

theorem guard_prec_417 : guard_prec 417 = 31 := by
  have hs : Nat.sqrt (16 * 417) = 81 := (Nat.eq_sqrt.mpr ⟨by norm_num, by norm_num⟩).symm
  unfold guard_prec
  rw [if_pos (by norm_num), hs]
  rfl

theorem guard_prec_1199 : guard_prec 1199 = 88 := by
  have hs : Nat.sqrt (16 * 1199) = 138 := (Nat.eq_sqrt.mpr ⟨by norm_num, by norm_num⟩).symm
  unfold guard_prec
  rw [if_pos (by norm_num), hs]
  rfl

/-- C12: the guard precision is positive wherever it is used. The leading term
is evaluated, with the precision `4 * sqrt n - 50` converted to an integer, only
in the floor+vec branch, which is taken only for `417 ≤ n < 1200`; for every
such `n` the precision is the floor of `4 * sqrt n - 50`, positive, at least 31
and at most 88 (both attained, at 417 and at 1199), and `4 * sqrt n - 50` lies
between `31 + 1/2` and `88 + 3/4`; for `128 ≤ n < 417` that branch is not taken
and the outcome is the same whatever the leading term routine is. -/
theorem guard_precision_positive (bits : Nat) (lookup : Nat → Nat)
    (C : Collaborators Arb Arf Dbl) (heap : Nat → Nat) (n : Nat) (use_doubles : Bool) :
    (branch bits n use_doubles = Branch.floor_vec → 417 ≤ n ∧ n < 1200) ∧
    (417 ≤ n → n < 1200 →
      guard_prec n = ⌊4 * Real.sqrt (n : ℝ) - 50⌋ ∧ 0 < guard_prec n ∧
      31 ≤ guard_prec n ∧ guard_prec n ≤ 88 ∧
      (31 : ℝ) + 1 / 2 < 4 * Real.sqrt (n : ℝ) - 50 ∧
      4 * Real.sqrt (n : ℝ) - 50 < (88 : ℝ) + 3 / 4) ∧
    (guard_prec 417 = 31 ∧ guard_prec 1199 = 88) ∧
    (128 ≤ n → n < 417 →
      branch bits n use_doubles ≠ Branch.floor_vec ∧
      ∀ leading : Int → Int → Arb,
        _partitions_fmpz_ui bits lookup (with_leading C leading) heap n use_doubles
          = _partitions_fmpz_ui bits lookup C heap n use_doubles) := by
  refine ⟨fun h => ?_, fun h1 h2 => ?_, ⟨guard_prec_417, guard_prec_1199⟩, fun h1 h2 => ?_⟩
  · obtain ⟨_, h417, hr⟩ := (branch_floor_vec_iff bits n use_doubles).mp h
    exact ⟨h417, by omega⟩
  · have hb := guard_prec_bounds n h1 h2
    exact ⟨guard_prec_eq_floor n (by omega), by omega, hb.1, hb.2, guard_real_bounds n h1 h2⟩
  · have hne : branch bits n use_doubles ≠ Branch.floor_vec := by
      intro h
      have := ((branch_floor_vec_iff bits n use_doubles).mp h).2.1
      omega
    exact ⟨hne, fun leading => ui_leading_unused bits lookup C heap n use_doubles leading hne⟩

/-- C12 at `n = 417` with `use_doubles` true and at `n = 416`. -/
theorem guard_precision_positive_witness :
    branch 64 417 true = Branch.floor_vec ∧ 417 ≤ 417 ∧ 417 < 1200 ∧
    guard_prec 417 = ⌊4 * Real.sqrt ((417 : Nat) : ℝ) - 50⌋ ∧ 0 < guard_prec 417 ∧
    31 ≤ guard_prec 417 ∧ guard_prec 417 ≤ 88 ∧
    (31 : ℝ) + 1 / 2 < 4 * Real.sqrt ((417 : Nat) : ℝ) - 50 ∧
    4 * Real.sqrt ((417 : Nat) : ℝ) - 50 < (88 : ℝ) + 3 / 4 ∧
    128 ≤ 416 ∧ 416 < 417 ∧ branch 64 416 true ≠ Branch.floor_vec := by
  have h417 := guard_precision_positive 64 partitions_lookup
    (interval_collaborators p_cert_value 0) zero_heap 417 true
  have h416 := guard_precision_positive 64 partitions_lookup
    (interval_collaborators p_cert_value 0) zero_heap 416 true
  have ha := h417.2.1 (by decide) (by decide)
  exact ⟨by decide, by decide, by decide, ha.1, ha.2.1, ha.2.2.1, ha.2.2.2.1, ha.2.2.2.2.1,
    ha.2.2.2.2.2, by decide, by decide, (h416.2.2.2 (by decide) (by decide)).1⟩

/-- C13: the validity window of the floor+vec method. For every `n`,
`use_doubles` and word width, if `_partitions_fmpz_ui` takes the floor+vec branch
then the word has 64 bits and `417 ≤ n < 1200` (`n < 500` when `use_doubles` is
true), so that the documented requirement `n ≤ 1498` holds. -/
theorem floor_vec_window (bits n : Nat) (use_doubles : Bool)
    (h : branch bits n use_doubles = Branch.floor_vec) :
    bits = 64 ∧ 417 ≤ n ∧ n < 1200 ∧ (use_doubles = true → n < 500) ∧ n ≤ 1498 := by
  obtain ⟨hb, h417, hr⟩ := (branch_floor_vec_iff bits n use_doubles).mp h
  refine ⟨hb, h417, by omega, fun hd => ?_, by omega⟩
  rcases hr with hr | ⟨hr, _⟩
  · exact hr
  · rw [hd] at hr; cases hr

/-- C13 at `n = 1199` without doubles, the last argument of the branch. -/
theorem floor_vec_window_witness :
    branch 64 1199 false = Branch.floor_vec ∧
    (64 = 64 ∧ 417 ≤ 1199 ∧ 1199 < 1200 ∧ (false = true → 1199 < 500) ∧ 1199 ≤ 1498) :=
  ⟨by decide, floor_vec_window 64 1199 false (by decide)⟩

/-- C15: `partitions_fmpz_ui` agrees with `partitions_fmpz_fmpz`. For every
unsigned `n`, below 2000 or not, the outcome of `partitions_fmpz_ui n` is the
outcome of `partitions_fmpz_fmpz n use_doubles` with `use_doubles` false. -/
theorem partitions_fmpz_ui_agrees (bits : Nat) (lookup : Nat → Nat)
    (C : Collaborators Arb Arf Dbl) (heap : Nat → Nat) (n : Nat) :
    partitions_fmpz_ui bits lookup C heap n
      = partitions_fmpz_fmpz bits lookup C heap (n : Int) false := by
  unfold partitions_fmpz_ui partitions_fmpz_fmpz
  by_cases h : (n : Int) < 2000
  · rw [if_pos h, if_neg (by omega), Int.toNat_ofNat]
  · rw [if_neg h]
    unfold _partitions_fmpz_ui
    rw [branch_hrr (by omega) (by rintro ⟨_, h1 | ⟨_, h1⟩⟩ <;> omega)]

/-! ## Index safety of the recurrence -/

theorem getD_set_option (l : List (Option Nat)) (i j : Nat) (a : Option Nat) :
    (l.set i a).getD j none = if i = j ∧ i < l.length then a else l.getD j none := by
  simp only [List.getD_eq_getElem?_getD, List.getElem?_set]
  by_cases h : i = j
  · subst h
    by_cases h2 : i < l.length
    · simp [h2]
    · simp [h2, List.getElem?_eq_none (Nat.le_of_not_lt h2)]
  · simp [h]

theorem written_replicate (v : List Nat) : Written 0 (List.replicate v.length none) v := by
  refine ⟨List.length_replicate _ _, fun k hk => absurd hk (Nat.not_lt_zero k), fun k _ => ?_⟩
  rw [List.getD_eq_getElem?_getD, List.getElem?_replicate]
  split_ifs <;> rfl

theorem pent_loop_checked_eq (W : Nat) (vc : List (Option Nat)) (v : List Nat) (n c : Nat)
    (h : Written n vc v) :
    ∀ fuel i j p, 1 ≤ j →
      pent_loop_checked W vc n c fuel i j p = some (pent_loop W v n c fuel i j p) := by
  intro fuel
  induction fuel with
  | zero => intro i j p _; rfl
  | succ fuel ih =>
    intro i j p hj
    rw [pent_loop_checked, pent_loop]
    split_ifs with hjn
    · have hr : checked_read vc n j = some (v.getD (n - j) 0) := by
        unfold checked_read
        rw [if_pos ⟨hj, hjn⟩]
        exact h.2.1 (n - j) (by omega)
      rw [hr]
      exact ih _ _ _ (by omega)
    · rfl

theorem vec_entry_checked_eq (W : Nat) (vc : List (Option Nat)) (v : List Nat) (n : Nat)
    (h : Written n vc v) : vec_entry_checked W vc n = some (vec_entry W v n) := by
  unfold vec_entry_checked
  rw [pent_loop_checked_eq W vc v n 1 h _ _ _ _ le_rfl]
  dsimp only
  rw [pent_loop_checked_eq W vc v n 2 h _ _ _ _ (by norm_num)]
  rfl

theorem checked_store_written (vc : List (Option Nat)) (v : List Nat) (len n x : Nat)
    (h : Written n vc v) (hn : n < len) (hv : n < v.length) :
    ∃ w, checked_store vc len n x = some w ∧ Written (n + 1) w (v.set n x) := by
  refine ⟨vc.set n (some x), ?_, ?_, ?_, ?_⟩
  · unfold checked_store
    rw [if_pos ⟨hn, by rw [h.1]; exact hv⟩]
  · rw [List.length_set, List.length_set, h.1]
  · intro k hk
    rw [getD_set_option, getD_set, h.1]
    by_cases hkn : n = k
    · rw [if_pos ⟨hkn, hv⟩, if_pos ⟨hkn, hv⟩]
    · rw [if_neg (fun e => hkn e.1), if_neg (fun e => hkn e.1)]
      exact h.2.1 k (by omega)
  · intro k hk
    rw [getD_set_option, if_neg (fun e => by omega)]
    exact h.2.2 k (by omega)

theorem for_checked_written (len : Nat)
    (body : List (Option Nat) → Nat → Option (List (Option Nat)))
    (ubody : List Nat → Nat → List Nat)
    (hlen : ∀ v n, (ubody v n).length = v.length)
    (hbody : ∀ n vc v, Written n vc v → n < len → n < v.length →
      ∃ w, body vc n = some w ∧ Written (n + 1) w (ubody v n)) :
    ∀ (cnt start : Nat) (vc : List (Option Nat)) (v : List Nat), Written start vc v →
      start + cnt ≤ len → start + cnt ≤ v.length →
      ∃ r, for_checked body vc start cnt = some r ∧
        Written (start + cnt) r ((List.range' start cnt).foldl ubody v) := by
  intro cnt
  induction cnt with
  | zero => intro start vc v h _ _; exact ⟨vc, rfl, h⟩
  | succ cnt ih =>
    intro start vc v h h1 h2
    obtain ⟨w, hw1, hw2⟩ := hbody start vc v h (by omega) (by omega)
    obtain ⟨r, hr1, hr2⟩ := ih (start + 1) w (ubody v start) hw2 (by omega)
      (by rw [hlen]; omega)
    refine ⟨r, ?_, ?_⟩
    · rw [for_checked, hw1]
      exact hr1
    · rw [List.range'_succ, List.foldl_cons, show start + (cnt + 1) = start + 1 + cnt by omega]
      exact hr2

theorem partitions_vec_checked_written (W : Nat) (lookup : Nat → Nat) (v : List Nat) (len : Nat)
    (hlen : len ≤ v.length) :
    ∃ r, partitions_vec_checked W lookup (List.replicate v.length none) len = some r ∧
      Written len r (partitions_vec W lookup v len) := by
  have hmin : min len NUMBER_OF_SMALL_PARTITIONS ≤ len := min_le_left _ _
  obtain ⟨r1, hr1, hw1⟩ := for_checked_written len
    (fun v n => checked_store v len n (lookup n)) (fun v n => v.set n (lookup n))
    (fun v n => List.length_set v n _)
    (fun n vc v h hn hv => checked_store_written vc v len n (lookup n) h hn hv)
    (min len NUMBER_OF_SMALL_PARTITIONS) 0 _ v (written_replicate v) (by omega) (by omega)
  rw [Nat.zero_add, ← List.range_eq_range'] at hw1
  have hseed : (List.range (min len NUMBER_OF_SMALL_PARTITIONS)).foldl
      (fun v n => v.set n (lookup n)) v = vec_seed lookup v len := rfl
  rw [hseed] at hw1
  unfold partitions_vec_checked
  rw [hr1]
  dsimp only
  by_cases hl : len ≤ NUMBER_OF_SMALL_PARTITIONS
  · rw [Nat.sub_eq_zero_of_le hl]
    refine ⟨r1, rfl, ?_⟩
    rw [min_eq_left hl] at hw1
    unfold partitions_vec
    rw [Nat.sub_eq_zero_of_le hl]
    exact hw1
  · have hl2 : NUMBER_OF_SMALL_PARTITIONS ≤ len := by omega
    rw [min_eq_right hl2] at hw1
    obtain ⟨r, hr, hw⟩ := for_checked_written len
      (fun v n =>
        match vec_entry_checked W v n with
        | none => none
        | some x => checked_store v len n x)
      (fun v n => v.set n (vec_entry W v n))
      (fun v n => List.length_set v n _)
      (fun n vc v h hn hv => by
        dsimp only
        rw [vec_entry_checked_eq W vc v n h]
        exact checked_store_written vc v len n _ h hn hv)
      (len - NUMBER_OF_SMALL_PARTITIONS) NUMBER_OF_SMALL_PARTITIONS r1 _ hw1 (by omega)
      (by rw [vec_seed_length]; omega)
    refine ⟨r, hr, ?_⟩
    rw [show NUMBER_OF_SMALL_PARTITIONS + (len - NUMBER_OF_SMALL_PARTITIONS) = len by omega] at hw
    exact hw

/-- C14: index safety of the recurrence. For every `len` (below 128 or not) and
every block of at least `len` limbs none of which has been written,
`partitions_vec` with every access checked runs to the end: each load `v[n - j]`
of the inner loops has `1 ≤ j ≤ n`, lies inside the block and reads a limb written
before, and each store is at an index below `len`. The limbs below `len` are then
those computed by `partitions_vec`, and the limbs from `len` on are still
unwritten. -/
theorem partitions_vec_index_safe (W : Nat) (lookup : Nat → Nat) (v : List Nat) (len : Nat)
    (hlen : len ≤ v.length) :
    ∃ r, partitions_vec_checked W lookup (List.replicate v.length none) len = some r ∧
      r.length = v.length ∧
      (∀ k, k < len → r.getD k none = some ((partitions_vec W lookup v len).getD k 0)) ∧
      (∀ k, len ≤ k → r.getD k none = none) := by
  obtain ⟨r, hr, hw⟩ := partitions_vec_checked_written W lookup v len hlen
  refine ⟨r, hr, ?_, hw.2.1, hw.2.2⟩
  rw [hw.1]
  unfold partitions_vec
  rw [vec_fill_length, vec_seed_length]

/-- C14 for `len = 200` on a block of `200` limbs. -/
theorem partitions_vec_index_safe_witness :
    200 ≤ (flint_malloc zero_heap 200).length ∧
    ∃ r, partitions_vec_checked (2 ^ 64) partitions_lookup
        (List.replicate (flint_malloc zero_heap 200).length none) 200 = some r ∧
      r.length = (flint_malloc zero_heap 200).length ∧
      (∀ k, k < 200 → r.getD k none
        = some ((partitions_vec (2 ^ 64) partitions_lookup
            (flint_malloc zero_heap 200) 200).getD k 0)) ∧
      (∀ k, 200 ≤ k → r.getD k none = none) :=
  ⟨le_of_eq (flint_malloc_length zero_heap 200).symm,
    partitions_vec_index_safe (2 ^ 64) partitions_lookup (flint_malloc zero_heap 200) 200
      (le_of_eq (flint_malloc_length zero_heap 200).symm)⟩

/-- The checks are effective: a store past the end of the block, a load of a limb
that was not written and a load with `j` outside `1 ≤ j ≤ n` all fail. -/
theorem checked_run_fails :
    partitions_vec_checked (2 ^ 64) partitions_lookup (List.replicate 3 none) 5 = none ∧
    vec_entry_checked (2 ^ 64) (List.replicate 10 none) 5 = none ∧
    checked_read [some 1, some 1, some 2] 2 0 = none ∧
    checked_read [some 1, some 1, some 2] 2 3 = none := by
  decide

/-! ## The extractor must return the only integer of its enclosure -/

theorem lower_end_result (bits : Nat) (lookup heap : Nat → Nat) (P : Nat → Nat) (ud : Bool) :
    partitions_fmpz_fmpz bits lookup (lower_end_collaborators P) heap ((2000 : Nat) : Int) ud
      = some ((P 2000 : Int) - 1) := by
  unfold partitions_fmpz_fmpz
  rw [if_neg (by norm_num)]
  simp [partitions_fmpz_fmpz_hrr, hrr_enclosure, lower_end_collaborators]

/-- C1 as worded fails: with an extractor that is only known to return an integer
lying in its enclosure, (i) to (iv) hold at `n = 2000` for the collaborators
`lower_end_collaborators p`, whose full series enclosure is `(p n - 1, p n)`, and
`partitions_fmpz_fmpz 2000 use_doubles` returns `p 2000 - 1`, which is not
`p 2000`. -/
theorem partitions_fmpz_fmpz_exact_counterexample :
    (∀ k, k < 128 → partitions_lookup k = p k) ∧
    (∀ ud, ball_contains (hrr_enclosure (lower_end_collaborators p) ((2000 : Nat) : Int) ud)
      (p 2000 : Int)) ∧
    ball_contains (floor_enclosure (lower_end_collaborators p) 2000) ((p 2000 : Int) / 2 ^ 64) ∧
    (∀ x m, (lower_end_collaborators p).arb_get_unique_fmpz x = some m → ball_contains x m) ∧
    partitions_fmpz_fmpz 64 partitions_lookup (lower_end_collaborators p) zero_heap
      ((2000 : Nat) : Int) false = some ((p 2000 : Int) - 1) ∧
    ¬ (∀ ud r, partitions_fmpz_fmpz 64 partitions_lookup (lower_end_collaborators p) zero_heap
      ((2000 : Nat) : Int) ud = some r → r = (p 2000 : Int)) := by
  refine ⟨partitions_lookup_eq_p, fun ud => ?_, ?_, fun x m h => ?_,
    lower_end_result 64 partitions_lookup zero_heap p false, fun h => ?_⟩
  · simp [hrr_enclosure, lower_end_collaborators, ball_contains]
  · simp [floor_enclosure, lower_end_collaborators, ball_contains]
  · simp only [lower_end_collaborators] at h
    split_ifs at h with hle
    cases h
    exact ⟨le_refl _, hle⟩
  · have := h false _ (lower_end_result 64 partitions_lookup zero_heap p false)
    omega

end Partitions

namespace AcbModular

theorem transform_general_re (a b c d : Int) (x y : ℝ) :
    (transform_general a b c d x y).1 = b * d + (b * c + a * d) * x + a * c * (x ^ 2 + y ^ 2) := by
  simp only [transform_general]
  push_cast
  ring

theorem transform_general_im (a b c d : Int) (x y : ℝ) :
    (transform_general a b c d x y).2.1 = (a * d - b * c) * y := by
  simp only [transform_general]
  push_cast
  ring

theorem transform_general_den (a b c d : Int) (x y : ℝ) :
    (transform_general a b c d x y).2.2 = c ^ 2 * (x ^ 2 + y ^ 2) + 2 * c * d * x + d ^ 2 := by
  simp only [transform_general]
  push_cast
  ring

theorem transform_general_den_normSq (a b c d : Int) (x y : ℝ) :
    (transform_general a b c d x y).2.2 = Complex.normSq ((c : ℂ) * ⟨x, y⟩ + d) := by
  rw [transform_general_den, Complex.normSq_apply]
  simp
  ring

theorem transform_general_quotient (a b c d : Int) (x y : ℝ) :
    (⟨(transform_general a b c d x y).1 / (transform_general a b c d x y).2.2,
      (transform_general a b c d x y).2.1 / (transform_general a b c d x y).2.2⟩ : ℂ)
      = ((a : ℂ) * ⟨x, y⟩ + b) / ((c : ℂ) * ⟨x, y⟩ + d) := by
  by_cases hz : (c : ℂ) * ⟨x, y⟩ + d = 0
  · have hden : (transform_general a b c d x y).2.2 = 0 := by
      rw [transform_general_den_normSq, hz, map_zero]
    rw [hz, hden, div_zero, div_zero, div_zero]
    rfl
  · have hden : (transform_general a b c d x y).2.2 ≠ 0 := by
      rw [transform_general_den_normSq]
      exact (Complex.normSq_pos.mpr hz).ne'
    rw [eq_div_iff hz]
    have hd := transform_general_den a b c d x y
    have hre := transform_general_re a b c d x y
    have him := transform_general_im a b c d x y
    apply Complex.ext
    · simp only [Complex.mul_re, Complex.add_re, Complex.intCast_re, Complex.intCast_im,
        Complex.add_im, Complex.mul_im]
      field_simp
      rw [hre, him, hd]
      ring
    · simp only [Complex.mul_re, Complex.add_re, Complex.intCast_re, Complex.intCast_im,
        Complex.add_im, Complex.mul_im]
      field_simp
      rw [hre, him, hd]
      ring

/-- With determinant one, `c = 0` and `d > 0` force `a = d = 1`. -/
theorem psl2z_c_zero (g : psl2z) (hg : psl2z_is_correct g) (hc : g.c = 0) :
    g.a = 1 ∧ g.d = 1 := by
  obtain ⟨hdet, _, hd⟩ := hg
  have hpos := hd hc
  rw [hc, mul_zero, sub_zero] at hdet
  have hd1 : g.d = 1 := by
    rcases Int.isUnit_iff.mp (isUnit_of_mul_eq_one_right g.a g.d hdet) with h | h
    · exact h
    · omega
  rw [hd1, mul_one] at hdet
  exact ⟨hdet, hd1⟩

/-- With determinant one, `a = 0` and `c ≥ 0` force `c = 1` and `b = -1`. -/
theorem psl2z_a_zero (g : psl2z) (hg : psl2z_is_correct g) (ha : g.a = 0) :
    g.c = 1 ∧ g.b = -1 := by
  obtain ⟨hdet, hc, _⟩ := hg
  rw [ha, zero_mul, zero_sub] at hdet
  have hbc : (-g.b) * g.c = 1 := by rw [neg_mul]; exact hdet
  have hc1 : g.c = 1 := by
    rcases Int.isUnit_iff.mp (isUnit_of_mul_eq_one_right (-g.b) g.c hbc) with h | h
    · exact h
    · omega
  rw [hc1, mul_one] at hbc
  exact ⟨hc1, by omega⟩

/-- C17: the general branch of `acb_modular_transform` in exact arithmetic. For
all integers `a`, `b`, `c`, `d` and real `x`, `y` with `z = x + i y` and
`c z + d ≠ 0`, the values computed by the branch are
`re = b d + (b c + a d) x + a c (x² + y²)`, `im = (a d - b c) y` and
`den = c² (x² + y²) + 2 c d x + d²`; they satisfy `den = |c z + d|² ≠ 0` and
`re / den + i im / den = (a z + b) / (c z + d)`. -/
theorem transform_general_exact (a b c d : Int) (x y : ℝ)
    (hz : (c : ℂ) * ⟨x, y⟩ + d ≠ 0) :
    (transform_general a b c d x y).1
      = b * d + (b * c + a * d) * x + a * c * (x ^ 2 + y ^ 2) ∧
    (transform_general a b c d x y).2.1 = (a * d - b * c) * y ∧
    (transform_general a b c d x y).2.2 = c ^ 2 * (x ^ 2 + y ^ 2) + 2 * c * d * x + d ^ 2 ∧
    (transform_general a b c d x y).2.2 = Complex.normSq ((c : ℂ) * ⟨x, y⟩ + d) ∧
    (transform_general a b c d x y).2.2 ≠ 0 ∧
    (⟨(transform_general a b c d x y).1 / (transform_general a b c d x y).2.2,
      (transform_general a b c d x y).2.1 / (transform_general a b c d x y).2.2⟩ : ℂ)
      = ((a : ℂ) * ⟨x, y⟩ + b) / ((c : ℂ) * ⟨x, y⟩ + d) := by
  refine ⟨transform_general_re a b c d x y, transform_general_im a b c d x y,
    transform_general_den a b c d x y, transform_general_den_normSq a b c d x y, ?_,
    transform_general_quotient a b c d x y⟩
  rw [transform_general_den_normSq]
  exact (Complex.normSq_pos.mpr hz).ne'

/-- The point `c z + d` is not zero for `c = 1`, `d = 1` and `z = i`. -/
theorem transform_witness_ne : ((1 : Int) : ℂ) * ⟨0, 1⟩ + ((1 : Int) : ℂ) ≠ 0 := by
  intro h
  have him := congrArg Complex.im h
  simp at him

/-- C17 at the matrix `(2 1; 1 1)` and `z = i`. -/
theorem transform_general_exact_witness :
    ((1 : Int) : ℂ) * ⟨0, 1⟩ + ((1 : Int) : ℂ) ≠ 0 ∧
    ((transform_general 2 1 1 1 (0 : ℝ) 1).1
      = ((1 : Int) : ℝ) * ((1 : Int) : ℝ)
        + (((1 : Int) : ℝ) * ((1 : Int) : ℝ) + ((2 : Int) : ℝ) * ((1 : Int) : ℝ)) * 0
        + ((2 : Int) : ℝ) * ((1 : Int) : ℝ) * ((0 : ℝ) ^ 2 + (1 : ℝ) ^ 2) ∧
    (transform_general 2 1 1 1 (0 : ℝ) 1).2.1
      = (((2 : Int) : ℝ) * ((1 : Int) : ℝ) - ((1 : Int) : ℝ) * ((1 : Int) : ℝ)) * 1 ∧
    (transform_general 2 1 1 1 (0 : ℝ) 1).2.2
      = ((1 : Int) : ℝ) ^ 2 * ((0 : ℝ) ^ 2 + (1 : ℝ) ^ 2)
        + 2 * ((1 : Int) : ℝ) * ((1 : Int) : ℝ) * 0 + ((1 : Int) : ℝ) ^ 2 ∧
    (transform_general 2 1 1 1 (0 : ℝ) 1).2.2
      = Complex.normSq (((1 : Int) : ℂ) * ⟨0, 1⟩ + ((1 : Int) : ℂ)) ∧
    (transform_general 2 1 1 1 (0 : ℝ) 1).2.2 ≠ 0 ∧
    (⟨(transform_general 2 1 1 1 (0 : ℝ) 1).1 / (transform_general 2 1 1 1 (0 : ℝ) 1).2.2,
      (transform_general 2 1 1 1 (0 : ℝ) 1).2.1 / (transform_general 2 1 1 1 (0 : ℝ) 1).2.2⟩ : ℂ)
      = (((2 : Int) : ℂ) * ⟨0, 1⟩ + ((1 : Int) : ℂ))
        / (((1 : Int) : ℂ) * ⟨0, 1⟩ + ((1 : Int) : ℂ))) :=
  ⟨transform_witness_ne, transform_general_exact 2 1 1 1 0 1 transform_witness_ne⟩

/-- C18: the special branches of `acb_modular_transform` in exact arithmetic.
For every matrix `g = (a b; c d)` with `a d - b c = 1`, `c ≥ 0` and `d > 0` when
`c = 0`, and every `z = x + i y`: `c = 0` forces `a = d = 1` and the result
`z + b` of the first branch is `(a z + b) / (c z + d)`; `a = 0` forces `c = 1`
and `b = -1` and the result `-1 / (z + d)` of the second branch is
`(a z + b) / (c z + d)`; so in every branch `acb_modular_transform` computes
`(a z + b) / (c z + d)` (where `c z + d = 0` both sides are the value `0` given
to a division by zero). -/
theorem transform_branches_agree (g : psl2z) (x y : ℝ) (hg : psl2z_is_correct g) :
    (g.c = 0 → g.a = 1 ∧ g.d = 1 ∧
      (⟨(acb_add_fmpz (x, y) g.b).1, (acb_add_fmpz (x, y) g.b).2⟩ : ℂ)
        = (⟨x, y⟩ : ℂ) + (g.b : ℂ) ∧
      (⟨x, y⟩ : ℂ) + (g.b : ℂ)
        = ((g.a : ℂ) * ⟨x, y⟩ + g.b) / ((g.c : ℂ) * ⟨x, y⟩ + g.d)) ∧
    (g.a = 0 → g.c = 1 ∧ g.b = -1 ∧
      (⟨(acb_neg (acb_inv (acb_add_fmpz (x, y) g.d))).1,
        (acb_neg (acb_inv (acb_add_fmpz (x, y) g.d))).2⟩ : ℂ)
        = -1 / ((⟨x, y⟩ : ℂ) + (g.d : ℂ)) ∧
      -1 / ((⟨x, y⟩ : ℂ) + (g.d : ℂ))
        = ((g.a : ℂ) * ⟨x, y⟩ + g.b) / ((g.c : ℂ) * ⟨x, y⟩ + g.d)) ∧
    (⟨(acb_modular_transform g (x, y)).1, (acb_modular_transform g (x, y)).2⟩ : ℂ)
      = ((g.a : ℂ) * ⟨x, y⟩ + g.b) / ((g.c : ℂ) * ⟨x, y⟩ + g.d) := by
  have hadd : ∀ m : Int, (⟨(acb_add_fmpz (x, y) m).1, (acb_add_fmpz (x, y) m).2⟩ : ℂ)
      = (⟨x, y⟩ : ℂ) + (m : ℂ) := by
    intro m
    apply Complex.ext <;> simp [acb_add_fmpz]
  have hinv : ∀ m : Int,
      (⟨(acb_neg (acb_inv (acb_add_fmpz (x, y) m))).1,
        (acb_neg (acb_inv (acb_add_fmpz (x, y) m))).2⟩ : ℂ)
        = -1 / ((⟨x, y⟩ : ℂ) + (m : ℂ)) := by
    intro m
    rw [neg_div, one_div]
    apply Complex.ext
    · simp [acb_neg, acb_inv, acb_add_fmpz, Complex.inv_re, Complex.normSq_apply]
    · simp [acb_neg, acb_inv, acb_add_fmpz, Complex.inv_im, Complex.normSq_apply]
  have h0 : g.c = 0 → (⟨x, y⟩ : ℂ) + (g.b : ℂ)
      = ((g.a : ℂ) * ⟨x, y⟩ + g.b) / ((g.c : ℂ) * ⟨x, y⟩ + g.d) := by
    intro hc
    obtain ⟨ha, hd⟩ := psl2z_c_zero g hg hc
    rw [hc, ha, hd]
    simp
  have h1 : g.a = 0 → -1 / ((⟨x, y⟩ : ℂ) + (g.d : ℂ))
      = ((g.a : ℂ) * ⟨x, y⟩ + g.b) / ((g.c : ℂ) * ⟨x, y⟩ + g.d) := by
    intro ha
    obtain ⟨hc, hb⟩ := psl2z_a_zero g hg ha
    rw [hc, ha, hb]
    simp
  refine ⟨fun hc => ⟨(psl2z_c_zero g hg hc).1, (psl2z_c_zero g hg hc).2, hadd g.b, h0 hc⟩,
    fun ha => ⟨(psl2z_a_zero g hg ha).1, (psl2z_a_zero g hg ha).2, hinv g.d, h1 ha⟩, ?_⟩
  unfold acb_modular_transform
  split_ifs with hc ha
  · rw [hadd, h0 hc]
  · rw [hinv, h1 ha]
  · exact transform_general_quotient g.a g.b g.c g.d x y

/-- The matrix `(0 -1; 1 3)` is normalised. -/
theorem transform_witness_correct : psl2z_is_correct (psl2z.mk 0 (-1) 1 3) := by
  unfold psl2z_is_correct
  decide

/-- C18 at the matrix `(0 -1; 1 3)`, which takes the second branch, and
`z = 1/2 + i`. -/
theorem transform_branches_agree_witness :
    psl2z_is_correct (psl2z.mk 0 (-1) 1 3) ∧
    ((psl2z.mk 0 (-1) 1 3).a = 0 → (psl2z.mk 0 (-1) 1 3).c = 1 ∧ (psl2z.mk 0 (-1) 1 3).b = -1 ∧
      (⟨(acb_neg (acb_inv (acb_add_fmpz ((1 / 2 : ℝ), (1 : ℝ)) (psl2z.mk 0 (-1) 1 3).d))).1,
        (acb_neg (acb_inv (acb_add_fmpz ((1 / 2 : ℝ), (1 : ℝ)) (psl2z.mk 0 (-1) 1 3).d))).2⟩ : ℂ)
        = -1 / ((⟨1 / 2, 1⟩ : ℂ) + ((psl2z.mk 0 (-1) 1 3).d : ℂ)) ∧
      -1 / ((⟨1 / 2, 1⟩ : ℂ) + ((psl2z.mk 0 (-1) 1 3).d : ℂ))
        = (((psl2z.mk 0 (-1) 1 3).a : ℂ) * ⟨1 / 2, 1⟩ + (psl2z.mk 0 (-1) 1 3).b)
          / (((psl2z.mk 0 (-1) 1 3).c : ℂ) * ⟨1 / 2, 1⟩ + (psl2z.mk 0 (-1) 1 3).d)) ∧
    (⟨(acb_modular_transform (psl2z.mk 0 (-1) 1 3) ((1 / 2 : ℝ), (1 : ℝ))).1,
      (acb_modular_transform (psl2z.mk 0 (-1) 1 3) ((1 / 2 : ℝ), (1 : ℝ))).2⟩ : ℂ)
      = (((psl2z.mk 0 (-1) 1 3).a : ℂ) * ⟨1 / 2, 1⟩ + (psl2z.mk 0 (-1) 1 3).b)
        / (((psl2z.mk 0 (-1) 1 3).c : ℂ) * ⟨1 / 2, 1⟩ + (psl2z.mk 0 (-1) 1 3).d) :=
  ⟨transform_witness_correct,
    (transform_branches_agree (psl2z.mk 0 (-1) 1 3) (1 / 2) 1 transform_witness_correct).2⟩

end AcbModular
